import Mathlib

/-!
Verification development for the selection-anchoring core of the
obsidian-reader-highlighter-tags repository.

Strings are modelled as `List Char`, offsets as `Nat`.  JavaScript floating
point arithmetic in the similarity metric is modelled by exact rationals
(`ℚ`); the numeric literals 0.85, 0.7, 0.3, 0.1 of the source become
17/20, 7/10, 3/10, 1/10.  JavaScript regular expressions are embedded as
small executable matchers with the exact leftmost / first-alternative /
greedy-with-backtracking semantics of the source patterns.  The global
`exec` loop of `findAllCandidates` is embedded with explicit fuel and an
`Option` result: `none` models the JavaScript loop failing to terminate
(which really happens for a zero-length pattern, see the C8 theorem),
`some` models a terminating run.
-/

/-- The whitespace class used by the source's regexes (`\s`) and by
JavaScript's `trim`.  Restricted to the ASCII part of the class: space,
tab, newline, carriage return, vertical tab, form feed. -/
def isWS (c : Char) : Bool :=
  c = ' ' || c = '\t' || c = '\n' || c = '\r' || c = '\x0b' || c = '\x0c'

/-- JavaScript `String.prototype.trim`: drop leading and trailing
whitespace. -/
def jsTrim (s : List Char) : List Char :=
  ((s.dropWhile isWS).reverse.dropWhile isWS).reverse

/-- JavaScript `substring(a, b)` (with `a ≤ b`), as list extraction. -/
def listExtract (s : List Char) (a b : Nat) : List Char :=
  (s.drop a).take (b - a)

/-- Does `pre` occur as an initial segment of `s`?  (Used to embed the
anchored prefix regexes of the span expansion.) -/
def startsWithList : List Char → List Char → Bool
  | [], _ => true
  | _ :: _, [] => false
  | p :: ps, c :: cs => p = c && startsWithList ps cs

/-!
## The whitespace-tolerant search pattern (SelectionLogic.js lines 70-74)

The source builds a regex from the snippet by escaping regex
metacharacters (semantically the identity: every escaped character
matches itself literally) and replacing each maximal whitespace run by
`\s+`.  The resulting pattern is an alternating sequence of literal
characters and one-or-more-whitespace atoms.
-/

/-- One atom of the search pattern built by
`snippet.trim().replace(metachars).replace(/\s+/g, '\\s+')`. -/
inductive Atom : Type
  | lit (c : Char)
  | ws
deriving DecidableEq, Repr

/-- Turn a (trimmed) snippet into its pattern atoms: each maximal
whitespace run becomes a single `Atom.ws` (the state `inWS` records that
the previous character belonged to a run, mirroring the effect of the
regex replacement `/\s+/g -> \\s+`). -/
def atomsOfAux : Bool → List Char → List Atom
  | _, [] => []
  | inWS, c :: cs =>
    if isWS c then
      if inWS then atomsOfAux true cs else Atom.ws :: atomsOfAux true cs
    else Atom.lit c :: atomsOfAux false cs

/-- The pattern built from a snippet: trim, then whitespace runs to
`\s+` (SelectionLogic.js lines 71-72 and 344-345). -/
def patternOf (snippet : List Char) : List Atom :=
  atomsOfAux false (jsTrim snippet)

/-- Match a pattern-atom sequence against a prefix of `cs`, returning
the number of characters consumed.  `Atom.ws` is the greedy
backtracking semantics of `\s+` (equivalently of `\s` then greedy
`\s*`): consume another whitespace character if the rest can still be
matched afterwards, otherwise stop the run here. -/
def matchAtoms : List Atom → List Char → Option Nat
  | [], _ => some 0
  | Atom.lit _ :: _, [] => none
  | Atom.lit c :: ps, d :: ds =>
    if d = c then (matchAtoms ps ds).map (· + 1) else none
  | Atom.ws :: _, [] => none
  | Atom.ws :: ps, d :: ds =>
    if isWS d then
      match matchAtoms (Atom.ws :: ps) ds with
      | some n => some (n + 1)
      | none => (matchAtoms ps ds).map (· + 1)
    else none

/-- Leftmost match at or after `pos`: try `pos`, `pos+1`, ... (`fuel`
bounds the number of start positions still to try).  Returns the match
span `(start, stop)`. -/
def findFromAux (text : List Char) (p : List Atom) : Nat → Nat → Option (Nat × Nat)
  | 0, _ => none
  | fuel + 1, pos =>
    match matchAtoms p (text.drop pos) with
    | some len => some (pos, pos + len)
    | none => findFromAux text p fuel (pos + 1)

/-- Leftmost match of the pattern at or after `pos` (the search a
JavaScript global regex performs from `lastIndex = pos`). -/
def findFrom (text : List Char) (p : List Atom) (pos : Nat) : Option (Nat × Nat) :=
  findFromAux text p (text.length + 1 - pos) pos

/-- The JavaScript `while ((match = regex.exec(text)) !== null)` loop:
after each match, the search resumes at the match end (`lastIndex`).
A zero-length match leaves `lastIndex` unchanged, so the JavaScript
loop never terminates; this is modelled by the fuel running out and the
result `none`. -/
def execLoop (text : List Char) (p : List Atom) : Nat → Nat → Option (List (Nat × Nat))
  | 0, _ => none
  | fuel + 1, pos =>
    match findFrom text p pos with
    | none => some []
    | some (s, e) => (execLoop text p fuel e).map ((s, e) :: ·)

/-- A candidate occurrence (SelectionLogic.js `{start, end, text}`). -/
structure Cand : Type where
  start : Nat
  stop : Nat
  text : List Char
deriving DecidableEq, Repr

/-- SelectionLogic.js `findAllCandidates` (lines 70-87): escape the
trimmed snippet, replace whitespace runs by `\s+`, and collect every
global match.  `none` models the non-terminating run of the JS loop. -/
def findAllCandidates (text snippet : List Char) : Option (List Cand) :=
  (execLoop text (patternOf snippet) (text.length + 2) 0).map
    (List.map fun se => ⟨se.1, se.2, listExtract text se.1 se.2⟩)

/-!
## The similarity metric (SelectionLogic.js lines 374-395)
-/

/-- JavaScript `String.prototype.split` with a single-character string
separator: cut at every occurrence of `sep`; `"".split(sep) = [""]`,
and a trailing separator yields a trailing empty segment. -/
def splitChar (sep : Char) : List Char → List (List Char)
  | [] => [[]]
  | c :: cs =>
    if c = sep then [] :: splitChar sep cs
    else match splitChar sep cs with
      | [] => [[c]]
      | seg :: rest => (c :: seg) :: rest

/-- SelectionLogic.js `calculateSimilarity` (lines 374-395), with
rationals for JS floats.  `split(' ')` cuts on single space characters;
the Sets of the source are modelled by `List.dedup` (only the sizes of
the sets are observed, so the iteration order of a JS Set is
irrelevant). -/
def calculateSimilarity (source target : List Char) : ℚ :=
  if source = target then 1000
  else
    let sourceTokens := splitChar ' ' source
    let targetTokens := splitChar ' ' target
    let inter : Nat := (targetTokens.dedup.filter (fun t => t ∈ sourceTokens.dedup)).length
    let union : Nat := (sourceTokens ++ targetTokens).dedup.length
    let jaccard : ℚ := if union = 0 then 0 else (inter : ℚ) / (union : ℚ)
    let lenDiff : ℚ := |(source.length : ℚ) - (target.length : ℚ)|
    let lenMultiplier : ℚ := 1 / (1 + lenDiff * (1 / 10))
    jaccard * (7 / 10) + lenMultiplier * (3 / 10)

/-!
## Context scoring and candidate selection (SelectionLogic.js lines 15-68)
-/

/-- Collapse whitespace runs to single spaces
(`.replace(/\s+/g, ' ')`); the state `inWS` records a run in
progress. -/
def collapseAux : Bool → List Char → List Char
  | _, [] => []
  | inWS, c :: cs =>
    if isWS c then
      if inWS then collapseAux true cs else ' ' :: collapseAux true cs
    else c :: collapseAux false cs

/-- `.replace(/\s+/g, ' ').trim()` as applied to the context and to each
candidate's source block. -/
def cleanWS (s : List Char) : List Char :=
  jsTrim (collapseAux false s)

/-- JavaScript `lastIndexOf(c, pos)`: the largest index `i ≤ pos` with
`s[i] = c` (searching backwards from `pos` inclusive). -/
def lastIdxOf (s : List Char) (c : Char) : Nat → Option Nat
  | 0 => if s.getD 0 ' ' = c ∧ 0 < s.length then some 0 else none
  | pos + 1 =>
    if s.getD (pos + 1) ' ' = c ∧ pos + 1 < s.length then some (pos + 1)
    else lastIdxOf s c pos

/-- JavaScript `indexOf(c, pos)`: the smallest index `i ≥ pos` with
`s[i] = c` (`fuel` counts the positions still to try). -/
def idxOfFrom (s : List Char) (c : Char) : Nat → Nat → Option Nat
  | 0, _ => none
  | fuel + 1, pos =>
    if s.getD pos ' ' = c ∧ pos < s.length then some pos
    else idxOfFrom s c fuel (pos + 1)

/-- The enclosing raw block of a candidate and its score against the
cleaned context (SelectionLogic.js lines 35-45): from the previous
newline (inclusive: the newline character itself is kept, and then
collapsed away) to the next newline. -/
def scoreCand (raw cleanContext : List Char) (c : Cand) : ℚ :=
  let blockStart := match lastIdxOf raw '\n' c.start with
    | some i => i
    | none => 0
  let blockEnd := match idxOfFrom raw '\n' (raw.length + 1 - c.stop) c.stop with
    | some i => i
    | none => raw.length
  let sourceBlock := cleanWS (listExtract raw blockStart blockEnd)
  calculateSimilarity sourceBlock cleanContext

/-- `Math.max(...)` over a list of scores; the list is always nonempty
where this is used (the empty case of the JS spread would be
`-Infinity`, modelled here by `0`). -/
def maxScoreQ : List ℚ → ℚ
  | [] => 0
  | x :: xs => xs.foldl max x

/-- The threshold filter of SelectionLogic.js lines 47-52: keep the
candidates whose score is at least 0.85 times the best score. -/
def validCandidates (scored : List (Cand × ℚ)) : List (Cand × ℚ) :=
  let best := maxScoreQ (scored.map (·.2))
  scored.filter (fun p => best * (17 / 20) ≤ p.2)

/-- The result record `{raw, start, end}` returned by
`locateSelection`. -/
structure LocResult : Type where
  raw : List Char
  start : Nat
  stop : Nat
deriving DecidableEq, Repr

/-- SelectionLogic.js lines 28-67: given the candidate list, produce the
returned value (`none` models the JS `null`).  An empty context string
is falsy in JS, so `if (context)` skips the whole scoring branch for
it. -/
def pickResult (raw : List Char) (context : Option (List Char)) (occurrenceIndex : Int)
    (candidates : List Cand) : Option LocResult :=
  match candidates with
  | [] => none
  | c0 :: _ =>
    let first : LocResult := ⟨raw, c0.start, c0.stop⟩
    match context with
    | none => some first
    | some ctx =>
      if ctx = [] then some first
      else
        let cleanContext := cleanWS ctx
        let scored := candidates.map (fun c => (c, scoreCand raw cleanContext c))
        let valid := validCandidates scored
        if 0 ≤ occurrenceIndex ∧ occurrenceIndex < (valid.length : Int) then
          match valid.getD occurrenceIndex.toNat (⟨0, 0, []⟩, 0) with
          | (chosen, _) => some ⟨raw, chosen.start, chosen.stop⟩
        else if 0 < valid.length then
          match valid.getD 0 (⟨0, 0, []⟩, 0) with
          | (chosen, _) => some ⟨raw, chosen.start, chosen.stop⟩
        else some first

/-!
## A small regex engine for the source's fixed patterns

The tokenizer of `findCandidatesStripped` and the line regexes of
`applyMarkdownModification` are fixed regular expressions over character
classes.  They are embedded by transliterating each pattern into a
sequence of `RE` items and running an executable matcher with the
JavaScript semantics: alternatives in order, greedy repetition with
backtracking.  The matcher takes explicit fuel (first argument) so that
it is structurally recursive; the fuel passed at every use is far larger
than the number of steps any of these fixed patterns can take on the
given input.
-/

/-- One item of an embedded regular expression: a literal character, a
single character of a class, greedy `class*`, greedy `class+`, a greedy
optional group `(?: … )?`, an ordered alternation `(?: … | … )`, and a
greedy counted repetition `class{lo,hi}`. -/
inductive RE : Type
  | chr (c : Char)
  | cls (p : Char → Bool)
  | star (p : Char → Bool)
  | plus (p : Char → Bool)
  | opt (inner : List RE)
  | alt (xs ys : List RE)
  | bnd (p : Char → Bool) (lo hi : Nat)

/-- Match a sequence of regex items against a prefix of the character
list, returning the number of characters consumed (leftmost-greedy,
backtracking, first alternative preferred — JavaScript semantics). -/
def reMatch : Nat → List RE → List Char → Option Nat
  | 0, _, _ => none
  | _ + 1, [], _ => some 0
  | _ + 1, RE.chr _ :: _, [] => none
  | fuel + 1, RE.chr c :: rs, d :: ds =>
    if d = c then (reMatch fuel rs ds).map (· + 1) else none
  | _ + 1, RE.cls _ :: _, [] => none
  | fuel + 1, RE.cls p :: rs, d :: ds =>
    if p d then (reMatch fuel rs ds).map (· + 1) else none
  | fuel + 1, RE.star _ :: rs, [] => reMatch fuel rs []
  | fuel + 1, RE.star p :: rs, d :: ds =>
    if p d then
      match reMatch fuel (RE.star p :: rs) ds with
      | some n => some (n + 1)
      | none => reMatch fuel rs (d :: ds)
    else reMatch fuel rs (d :: ds)
  | _ + 1, RE.plus _ :: _, [] => none
  | fuel + 1, RE.plus p :: rs, d :: ds =>
    if p d then (reMatch fuel (RE.star p :: rs) ds).map (· + 1) else none
  | fuel + 1, RE.opt inner :: rs, ds =>
    match reMatch fuel (inner ++ rs) ds with
    | some n => some n
    | none => reMatch fuel rs ds
  | fuel + 1, RE.alt xs ys :: rs, ds =>
    match reMatch fuel (xs ++ rs) ds with
    | some n => some n
    | none => reMatch fuel (ys ++ rs) ds
  | fuel + 1, RE.bnd _ lo _ :: rs, [] =>
    if lo = 0 then reMatch fuel rs [] else none
  | fuel + 1, RE.bnd p lo hi :: rs, d :: ds =>
    if 0 < hi && p d then
      match reMatch fuel (RE.bnd p (lo - 1) (hi - 1) :: rs) ds with
      | some n => some (n + 1)
      | none => if lo = 0 then reMatch fuel rs (d :: ds) else none
    else if lo = 0 then reMatch fuel rs (d :: ds) else none

/-!
## The tokenizer of findCandidatesStripped (SelectionLogic.js lines 107-341)

Character classes and the seventeen alternatives of `tokenRegex`
(lines 173-208), transliterated one for one.
-/

def notRB (c : Char) : Bool := c != ']'

def notPQ (c : Char) : Bool := c != '(' && c != ')' && c != '"'

def notRP (c : Char) : Bool := c != ')'

def notDQ (c : Char) : Bool := c != '"'

/-- The backquote character (code point 96). -/
def backquote : Char := Char.ofNat 96

def notBQ (c : Char) : Bool := c != backquote

def notDollar (c : Char) : Bool := c != '$'

def nonDollarWS (c : Char) : Bool := c != '$' && !(isWS c)

def notPct (c : Char) : Bool := c != '%'

def notGT (c : Char) : Bool := c != '>'

def asciiAlpha (c : Char) : Bool := c.isAlpha

def emailLocalChar (c : Char) : Bool :=
  c.isAlpha || c.isDigit || c = '.' || c = '_' || c = '%' || c = '+' || c = '-'

def emailDomainChar (c : Char) : Bool :=
  c.isAlpha || c.isDigit || c = '.' || c = '-'

/-- The escapable characters of Group 14 (the class after the
backslash). -/
def escChar (c : Char) : Bool :=
  (['*', '_', '[', ']', '(', ')', Char.ofNat 123, Char.ofNat 125, '#', '>',
    '+', '-', '.', '!', backquote, '~', '=', '|', '\\'] : List Char).contains c

/-- Group 1: Obsidian embed. -/
def grp1 : List RE := [.chr '!', .chr '[', .chr '[', .plus notRB, .chr ']', .chr ']']

/-- Group 2: image with reference. -/
def grp2 : List RE := [.chr '!', .chr '[', .star notRB, .chr ']', .chr '[', .star notRB, .chr ']']

/-- The URL part shared by groups 3 and 5. -/
def urlPart : List RE :=
  [.star notPQ, .opt [.chr '(', .star notRP, .chr ')'], .star notPQ,
   .opt [.chr '"', .star notDQ, .chr '"']]

/-- Group 3: image with URL. -/
def grp3 : List RE := [.chr '!', .chr '[', .star notRB, .chr ']', .chr '('] ++ urlPart ++ [.chr ')']

/-- Group 4: reference-style link. -/
def grp4 : List RE := [.chr '[', .plus notRB, .chr ']', .chr '[', .star notRB, .chr ']']

/-- Group 5: markdown link. -/
def grp5 : List RE := [.chr '[', .plus notRB, .chr ']', .chr '('] ++ urlPart ++ [.chr ')']

/-- Group 6: wiki link. -/
def grp6 : List RE := [.chr '[', .chr '[', .plus notRB, .chr ']', .chr ']']

/-- Group 7: footnote reference. -/
def grp7 : List RE := [.chr '[', .chr '^', .plus notRB, .chr ']']

/-- Group 8: block math. -/
def grp8 : List RE := [.chr '$', .chr '$', .plus notDollar, .chr '$', .chr '$']

/-- Group 9: inline math (single non-space char, or non-space chars at
both ends). -/
def grp9 : List RE :=
  [.chr '$', .alt [.cls nonDollarWS] [.cls nonDollarWS, .star notDollar, .cls nonDollarWS],
   .chr '$']

/-- Group 10: Obsidian comment. -/
def grp10 : List RE := [.chr '%', .chr '%', .star notPct, .chr '%', .chr '%']

/-- Group 11: inline code. -/
def grp11 : List RE := [.chr backquote, .plus notBQ, .chr backquote]

/-- Group 12: autolink (http(s) URL or email). -/
def grp12 : List RE :=
  [.chr '<',
   .alt [.chr 'h', .chr 't', .chr 't', .chr 'p', .opt [.chr 's'], .chr ':', .chr '/', .chr '/',
         .plus notGT]
        [.plus emailLocalChar, .chr '@', .plus emailDomainChar, .chr '.',
         .cls asciiAlpha, .plus asciiAlpha],
   .chr '>']

/-- Group 13: HTML tag. -/
def grp13 : List RE := [.chr '<', .opt [.chr '/'], .cls asciiAlpha, .star notGT, .chr '>']

/-- Group 14: escaped character. -/
def grp14 : List RE := [.chr '\\', .cls escChar]

/-- Group 15: triple formatting. -/
def grp15 : List RE := [.chr '*', .chr '*', .chr '*']

/-- Group 16: double formatting. -/
def grp16 : List RE := [.alt [.chr '*', .chr '*'] [.alt [.chr '~', .chr '~'] [.chr '=', .chr '=']]]

/-- Group 17: single formatting. -/
def grp17 : List RE := [.alt [.chr '*'] [.chr '_']]

/-- The alternation of `tokenRegex`, in source order. -/
def tokenGroups : List (Nat × List RE) :=
  [(1, grp1), (2, grp2), (3, grp3), (4, grp4), (5, grp5), (6, grp6), (7, grp7),
   (8, grp8), (9, grp9), (10, grp10), (11, grp11), (12, grp12), (13, grp13),
   (14, grp14), (15, grp15), (16, grp16), (17, grp17)]

/-- Fuel that over-approximates the number of matcher steps any of the
fixed token patterns can take on an input of length `n`. -/
def tokenFuel (n : Nat) : Nat := (n + 4) * (n + 4) * (n + 4) * 8 + 64

/-- Try the alternation at position `i` of the text: the first group
(in source order) that matches wins; returns `(group, length)`. -/
def tokenAt (text : List Char) (i : Nat) : Option (Nat × Nat) :=
  let s := text.drop i
  (tokenGroups.filterMap (fun g => (reMatch (tokenFuel s.length) g.2 s).map ((g.1, ·)))).head?

/-- Leftmost token at or after `pos` (the JS `tokenRegex.exec` search);
returns `(start, group, length)`. -/
def findTokenAux (text : List Char) : Nat → Nat → Option (Nat × Nat × Nat)
  | 0, _ => none
  | fuel + 1, pos =>
    match tokenAt text pos with
    | some gl => some (pos, gl.1, gl.2)
    | none => findTokenAux text fuel (pos + 1)

def findToken (text : List Char) (pos : Nat) : Option (Nat × Nat × Nat) :=
  findTokenAux text (text.length + 1 - pos) pos

/-- SelectionLogic.js lines 111-131: is the character at `pos` (the
start of) a formatting marker, and how many characters does it span?
Out-of-range accesses are JS `undefined`, modelled by `none`. -/
def isFormattingMarker (s : List Char) (pos : Nat) : Nat :=
  let c := s[pos]?
  let n1 := s[pos + 1]?
  let n2 := s[pos + 2]?
  if c = some '*' ∧ n1 = some '*' ∧ n2 = some '*' then 3
  else if (c = some '*' ∧ n1 = some '*') ∨ (c = some '~' ∧ n1 = some '~') ∨
          (c = some '=' ∧ n1 = some '=') then 2
  else if c = some '*' ∨ c = some '_' then 1
  else 0

/-- SelectionLogic.js `extractVisibleText` (lines 134-144): copy the
range `[i, stopPos)` into the map and the stripped text, skipping
formatting markers.  Structural fuel bounds the loop (each step
advances `i` by at least one). -/
def extractVis (text : List Char) : Nat → Nat → Nat → List Nat × List Char
  | 0, _, _ => ([], [])
  | fuel + 1, i, stopPos =>
    if i < stopPos then
      let skip := isFormattingMarker text i
      if 0 < skip then extractVis text fuel (i + skip) stopPos
      else
        let rest := extractVis text fuel (i + 1) stopPos
        (i :: rest.1, text.getD i ' ' :: rest.2)
    else ([], [])

/-- Copy `count` consecutive characters starting at `start` into the
map / stripped text (the plain copying loops of the source). -/
def copyRun (text : List Char) : Nat → Nat → List Nat × List Char
  | _, 0 => ([], [])
  | start, count + 1 =>
    let rest := copyRun text (start + 1) count
    (start :: rest.1, text.getD start ' ' :: rest.2)

/-- SelectionLogic.js `addRawText` (lines 147-152). -/
def addRawText (text : List Char) (startPos stopPos : Nat) : List Nat × List Char :=
  copyRun text startPos (stopPos - startPos)

/-- JavaScript `indexOf` of a substring: first position where `needle`
occurs in `hay` (`none` models `-1`). -/
def subIdxAux (needle hay : List Char) : Nat → Nat → Option Nat
  | 0, _ => none
  | fuel + 1, pos =>
    if startsWithList needle (hay.drop pos) then some pos
    else subIdxAux needle hay fuel (pos + 1)

def subIdx (needle hay : List Char) : Option Nat :=
  subIdxAux needle hay (hay.length + 1) 0

/-- The per-match processing of SelectionLogic.js lines 223-332: which
characters of the matched token are visible. -/
def processToken (text : List Char) (ts g len : Nat) : List Nat × List Char :=
  let fullMatch := listExtract text ts (ts + len)
  if g = 1 then
    let inner := listExtract fullMatch 3 (len - 2)
    match subIdx ['|'] inner with
    | some pipe => extractVis text (len + 1) (ts + 3 + pipe + 1) (ts + len - 2)
    | none => extractVis text (len + 1) (ts + 3) (ts + len - 2)
  else if g = 2 then
    match subIdx [']', '['] fullMatch with
    | some cb => extractVis text (len + 1) (ts + 2) (ts + cb)
    | none => ([], [])
  else if g = 3 then
    match subIdx [']', '('] fullMatch with
    | some cb => extractVis text (len + 1) (ts + 2) (ts + cb)
    | none => ([], [])
  else if g = 4 then
    match subIdx [']', '['] fullMatch with
    | some cb => extractVis text (len + 1) (ts + 1) (ts + cb)
    | none => ([], [])
  else if g = 5 then
    match subIdx [']', '('] fullMatch with
    | some cb => extractVis text (len + 1) (ts + 1) (ts + cb)
    | none => ([], [])
  else if g = 6 then
    let inner := listExtract fullMatch 2 (len - 2)
    match subIdx ['|'] inner with
    | some pipe => extractVis text (len + 1) (ts + 2 + pipe + 1) (ts + len - 2)
    | none => extractVis text (len + 1) (ts + 2) (ts + len - 2)
  else if g = 7 then addRawText text (ts + 2) (ts + len - 1)
  else if g = 8 then addRawText text (ts + 2) (ts + len - 2)
  else if g = 9 then addRawText text (ts + 1) (ts + len - 1)
  else if g = 10 then ([], [])
  else if g = 11 then addRawText text (ts + 1) (ts + len - 1)
  else if g = 12 then addRawText text (ts + 1) (ts + len - 1)
  else if g = 13 then ([], [])
  else if g = 14 then ([ts + 1], [text.getD (ts + 1) ' '])
  else ([], [])

/-- The main scan of SelectionLogic.js lines 210-341: copy the text up
to the next token, process the token, continue after it; copy the tail
once no token remains.  Fuel is structural; `text.length + 1` always
suffices because each round advances past a nonempty token. -/
def stripLoop (text : List Char) : Nat → Nat → List Nat × List Char
  | 0, _ => ([], [])
  | fuel + 1, pos =>
    match findToken text pos with
    | none => copyRun text pos (text.length - pos)
    | some (ts, g, len) =>
      let pre := copyRun text pos (ts - pos)
      let tok := processToken text ts g len
      let rest := stripLoop text fuel (ts + len)
      (pre.1 ++ tok.1 ++ rest.1, pre.2 ++ tok.2 ++ rest.2)

/-- The Stripper/Mapper: `(positionMap, strippedText)` for a raw
text. -/
def buildStripped (text : List Char) : List Nat × List Char :=
  stripLoop text (text.length + 1) 0

/-- SelectionLogic.js `findCandidatesStripped` (lines 89-372): build the
stripped projection, search it with the whitespace-tolerant pattern,
and translate stripped offsets back through the position map
(lines 355-362). -/
def findCandidatesStripped (text snippet : List Char) : Option (List Cand) :=
  let ms := buildStripped text
  let p := patternOf snippet
  (execLoop ms.2 p (ms.2.length + 2) 0).map (List.map fun se =>
    let rawStart := ms.1.getD se.1 0
    let rawEnd := if se.2 < ms.1.length then ms.1.getD se.2 0 else ms.1.getD (se.2 - 1) 0 + 1
    ⟨rawStart, rawEnd, listExtract text rawStart rawEnd⟩)

/-- SelectionLogic.js `locateSelection` (lines 15-68).  The outer
`Option` models termination of the JS call (`none` = the search loop
diverges, see C8); the inner `Option` is the JS `null` result. -/
def locateSelection (raw snippet : List Char) (context : Option (List Char))
    (occurrenceIndex : Int) : Option (Option LocResult) :=
  match findAllCandidates raw snippet with
  | none => none
  | some exact =>
    match (if exact.length = 0 then findCandidatesStripped raw snippet else some exact) with
    | none => none
    | some candidates => some (pickResult raw context occurrenceIndex candidates)

/-!
## Span expansion and line rewriting (main.js lines 686-800)
-/

/-- Does the whole span match the alternative `<mark[^>]*>` of the
backward-expansion regex: literally `<mark`, then non-`>` characters,
then a final `>`. -/
def isMarkOpenSpan (s : List Char) : Bool :=
  startsWithList ['<', 'm', 'a', 'r', 'k'] s &&
  (let rest := s.drop 5
   rest.getLast? == some '>' && rest.dropLast.all notGT)

/-- Does the span match one of the alternatives of the backward
regex `(<mark[^>]*>|\*\*|==|~~|\*|_|\[\[|\[)$` in its entirety (the
trailing `$` anchors the alternative to the end of the preceding
text). -/
def isBackDelimSpan (s : List Char) : Bool :=
  isMarkOpenSpan s || s == ['*', '*'] || s == ['=', '='] || s == ['~', '~'] ||
  s == ['*'] || s == ['_'] || s == ['[', '['] || s == ['[']

/-- The JS `preceding.match(/(…)$/)` is the leftmost start position
whose suffix matches an alternative to the end; scan `s0 = 0, 1, …` and
return the length of the matched suffix. -/
def backDelimScan (raw : List Char) (stopPos : Nat) : Nat → Nat → Option Nat
  | 0, _ => none
  | fuel + 1, s0 =>
    if s0 < stopPos then
      if isBackDelimSpan (listExtract raw s0 stopPos) then some (stopPos - s0)
      else backDelimScan raw stopPos fuel (s0 + 1)
    else none

/-- Length of the delimiter that `raw.substring(0, stopPos)` ends with,
if any (main.js lines 695-696). -/
def backDelimAt (raw : List Char) (stopPos : Nat) : Option Nat :=
  backDelimScan raw stopPos stopPos 0

/-- The forward regex `^(<\/mark>|\*\*|==|~~|\*|_|\]\]|\]\([^)]+\))`
applied to `raw.substring(stopPos)` (main.js lines 703-704): first
alternative, anchored at the start; returns the matched length. -/
def fwdDelimAt (raw : List Char) (stopPos : Nat) : Option Nat :=
  let f := raw.drop stopPos
  if startsWithList ['<', '/', 'm', 'a', 'r', 'k', '>'] f then some 7
  else if startsWithList ['*', '*'] f then some 2
  else if startsWithList ['=', '='] f then some 2
  else if startsWithList ['~', '~'] f then some 2
  else if startsWithList ['*'] f then some 1
  else if startsWithList ['_'] f then some 1
  else if startsWithList [']', ']'] f then some 2
  else if startsWithList [']', '('] f then
    let run := (f.drop 2).takeWhile notRP
    if 0 < run.length && (f.drop (2 + run.length)).head? == some ')' then
      some (2 + run.length + 1)
    else none
  else none

/-- One iteration of the expansion loop (main.js lines 692-710): try to
grow backwards and forwards; the Bool is the `expanded` flag. -/
def expandOnce (raw : List Char) (st : Nat × Nat) : (Nat × Nat) × Bool :=
  let back := backDelimAt raw st.1
  let s1 := match back with
    | some l => st.1 - l
    | none => st.1
  let fwd := fwdDelimAt raw st.2
  let e1 := match fwd with
    | some l => st.2 + l
    | none => st.2
  ((s1, e1), back.isSome || fwd.isSome)

/-- The `while (expanded)` loop, with structural fuel (`none` = fuel
exhausted; the fuel used below always suffices, see the C9 theorem). -/
def expandLoop (raw : List Char) : Nat → Nat × Nat → Option (Nat × Nat)
  | 0, _ => none
  | fuel + 1, st =>
    let step := expandOnce raw st
    if step.2 then expandLoop raw fuel step.1 else some st

/-- The fixed point `(expandedStart, expandedEnd)` of the expansion
loop started at `(s, e)`. -/
def expandFix (raw : List Char) (s e : Nat) : Nat × Nat :=
  (expandLoop raw (s + raw.length + 1) (s, e)).getD (s, e)

/-- The modes handled by `applyMarkdownModification` (compared as
strings in the source). -/
inductive MarkMode : Type
  | highlight | color | tag | bold | italic | remove
deriving DecidableEq, Repr

/-- The plugin settings read by `applyMarkdownModification`.  The field
`defaultTagPrefixSetting` embeds the source's default-tag-prefix
setting string. -/
structure PluginSettings : Type where
  defaultTagPrefixSetting : List Char
  enableColorHighlighting : Bool
  highlightColor : List Char
deriving DecidableEq, Repr

/-- The pre-calculated tag token(s) (main.js lines 715-739). -/
def computeFullTag (st : PluginSettings) (mode : MarkMode)
    (payload autoTag : List Char) : List Char :=
  let base :=
    if mode = MarkMode.tag ∧ payload ≠ [] then
      let pfx := if st.defaultTagPrefixSetting ≠ [] then jsTrim st.defaultTagPrefixSetting else []
      let cleanPayload := if payload.head? = some '#' then payload.drop 1 else payload
      if pfx ≠ [] then
        let cleanPfx := if pfx.head? = some '#' then pfx.drop 1 else pfx
        '#' :: (cleanPfx ++ [' '] ++ '#' :: cleanPayload)
      else '#' :: cleanPayload
    else if (mode = MarkMode.highlight ∨ mode = MarkMode.color) ∧
            st.defaultTagPrefixSetting ≠ [] then
      let autoTagSetting := jsTrim st.defaultTagPrefixSetting
      if autoTagSetting ≠ [] then
        let cleanTag := if autoTagSetting.head? = some '#' then autoTagSetting.drop 1
                        else autoTagSetting
        '#' :: cleanTag
      else []
    else []
  if autoTag ≠ [] then
    let cleanAutoTag := if autoTag.head? = some '#' then autoTag else '#' :: autoTag
    if base ≠ [] then base ++ [' '] ++ cleanAutoTag else cleanAutoTag
  else base

/-- The regex `<mark[^>]*>` of the mark-stripping replace. -/
def markOpenRE : List RE := [.chr '<', .chr 'm', .chr 'a', .chr 'r', .chr 'k', .star notGT, .chr '>']

/-- Global `replace(pattern, "")`: scan left to right, drop every
leftmost match, copy other characters. -/
def removeREAux (p : List RE) : Nat → List Char → List Char
  | 0, s => s
  | fuel + 1, s =>
    match s with
    | [] => []
    | c :: cs =>
      match reMatch (tokenFuel s.length) p s with
      | some n => removeREAux p fuel (s.drop n)
      | none => c :: removeREAux p fuel cs

def removeREAll (p : List RE) (s : List Char) : List Char :=
  removeREAux p (s.length + 1) s

/-- `split(sub).join('')`, i.e. removal of every (leftmost,
non-overlapping) occurrence of a literal substring. -/
def removeSubAux (needle : List Char) : Nat → List Char → List Char
  | 0, s => s
  | fuel + 1, s =>
    match s with
    | [] => []
    | c :: cs =>
      if startsWithList needle s && !needle.isEmpty then
        removeSubAux needle fuel (s.drop needle.length)
      else c :: removeSubAux needle fuel cs

def removeSubAll (needle s : List Char) : List Char :=
  removeSubAux needle (s.length + 1) s

/-- The paragraph separator regex `\n\s*\n` (main.js line 713). -/
def paraRE : List RE := [.chr '\n', .star isWS, .chr '\n']

/-- JavaScript `String.prototype.split` with a regex separator:
leftmost non-overlapping matches cut the string. -/
def splitREAux (p : List RE) : Nat → List Char → List (List Char)
  | 0, s => [s]
  | _ + 1, [] => [[]]
  | fuel + 1, c :: cs =>
    match reMatch (tokenFuel (cs.length + 1)) p (c :: cs) with
    | some n => [] :: splitREAux p fuel ((c :: cs).drop n)
    | none =>
      match splitREAux p fuel cs with
      | [] => [[c]]
      | seg :: rest => (c :: seg) :: rest

def splitREAll (p : List RE) (s : List Char) : List (List Char) :=
  splitREAux p (s.length + 1) s

/-- `Array.prototype.join` with a separator. -/
def joinSep (sep : List Char) : List (List Char) → List Char
  | [] => []
  | [x] => x
  | x :: xs => x ++ sep ++ joinSep sep xs

/-- `^((?:#{1,6}\s+)|…)` — the structural prefix regex of main.js
line 767, one alternative per `List RE`, in source order. -/
def headingRE : List RE := [.bnd (fun c => c = '#') 1 6, .plus isWS]

def bulletRE : List RE := [.cls (fun c => c = '-' || c = '*' || c = '+'), .plus isWS]

def orderedRE : List RE := [.plus Char.isDigit, .chr '.', .plus isWS]

def quoteRE : List RE := [.chr '>', .plus isWS]

def checkboxRE : List RE :=
  [.chr '-', .cls isWS, .chr '[', .cls (fun c => c = ' ' || c = 'x'), .chr ']', .plus isWS]

def pfxAlts : List (List RE) := [headingRE, bulletRE, orderedRE, quoteRE, checkboxRE]

/-- Anchored ordered alternation: the first alternative that matches a
prefix of `s` wins (nothing follows the group in the source regex). -/
def tryAlts (alts : List (List RE)) (s : List Char) : Option Nat :=
  (alts.filterMap (fun p => reMatch (tokenFuel s.length) p s)).head?

/-- The string `<mark style="background: C; color: black;">`. -/
def markOpenStr (color : List Char) : List Char :=
  "<mark style=\"background: ".data ++ color ++ "; color: black;\">".data

/-- The per-line rewriting of main.js lines 746-792. -/
def processLine (st : PluginSettings) (mode : MarkMode) (payload fullTag line : List Char) :
    List Char :=
  let c1 := removeSubAll "</mark>".data (removeREAll markOpenRE line)
  let cleanLine :=
    match mode with
    | MarkMode.highlight | MarkMode.color | MarkMode.tag => removeSubAll ['=', '='] c1
    | MarkMode.bold => removeSubAll ['*', '*'] c1
    | MarkMode.italic => removeSubAll ['*'] c1
    | MarkMode.remove => removeSubAll ['=', '='] c1
  if mode = MarkMode.remove then cleanLine
  else
    let indent := cleanLine.takeWhile isWS
    let contentAfterIndent := cleanLine.drop indent.length
    let (pfx, content) :=
      match tryAlts pfxAlts contentAfterIndent with
      | some n => (contentAfterIndent.take n, contentAfterIndent.drop n)
      | none => ([], contentAfterIndent)
    let tagStr := if fullTag = [] then [] else fullTag ++ [' ']
    let wrappedContent :=
      match mode with
      | MarkMode.highlight | MarkMode.tag =>
        if st.enableColorHighlighting ∧ st.highlightColor ≠ [] then
          markOpenStr st.highlightColor ++ content ++ "</mark>".data
        else ['=', '='] ++ content ++ ['=', '=']
      | MarkMode.color => markOpenStr payload ++ content ++ "</mark>".data
      | _ => content
    indent ++ pfx ++ tagStr ++ wrappedContent

/-- The per-paragraph rewriting (main.js lines 741-795): blank
paragraphs pass through, otherwise process each line. -/
def processParagraph (st : PluginSettings) (mode : MarkMode)
    (payload fullTag paragraph : List Char) : List Char :=
  if jsTrim paragraph = [] then paragraph
  else joinSep ['\n'] ((splitChar '\n' paragraph).map (processLine st mode payload fullTag))

/-- The full rewriting of the expanded selection (split into
paragraphs, process, reassemble — main.js lines 712-797). -/
def rewriteBlock (st : PluginSettings) (mode : MarkMode)
    (payload autoTag selectedText : List Char) : List Char :=
  let fullTag := computeFullTag st mode payload autoTag
  joinSep ['\n', '\n']
    ((splitREAll paraRE selectedText).map (processParagraph st mode payload fullTag))

/-- main.js `applyMarkdownModification` (lines 686-800): expand the
span, rewrite the selected block, and write back
`raw[0:expandedStart] ++ block ++ raw[expandedEnd:]` (line 798). -/
def applyMarkdownModification (st : PluginSettings) (raw : List Char) (start stop : Nat)
    (mode : MarkMode) (payload autoTag : List Char) : List Char :=
  let es := (expandFix raw start stop).1
  let ee := (expandFix raw start stop).2
  let selectedText := listExtract raw es ee
  raw.take es ++ rewriteBlock st mode payload autoTag selectedText ++ raw.drop ee

/-!
## Specification-side notions
-/

/-- "Equals the snippet modulo whitespace normalization": the text is
the pattern's literal characters with each `\s+` atom realised by some
nonempty run of whitespace characters (the relation named by the
spec's property 1 and §4.2 Step 1). -/
inductive WSMatch : List Atom → List Char → Prop
  | nil : WSMatch [] []
  | lit {c : Char} {ps : List Atom} {t : List Char} :
      WSMatch ps t → WSMatch (Atom.lit c :: ps) (c :: t)
  | ws {ps : List Atom} {t : List Char} (run : List Char) :
      run ≠ [] → (∀ c ∈ run, isWS c = true) →
      WSMatch ps t → WSMatch (Atom.ws :: ps) (run ++ t)

/-- Tokenizing a string by whitespace (the spec's wording in §4.2 for
the similarity metric): maximal non-whitespace runs, no empty
tokens.  The accumulator holds the current token reversed. -/
def wsTokensAux : List Char → List Char → List (List Char)
  | acc, [] => if acc = [] then [] else [acc.reverse]
  | acc, c :: cs =>
    if isWS c then
      if acc = [] then wsTokensAux [] cs else acc.reverse :: wsTokensAux [] cs
    else wsTokensAux (c :: acc) cs

def wsTokens (s : List Char) : List (List Char) :=
  wsTokensAux [] s

/-- The similarity metric exactly as the spec's words define it:
token sets obtained by tokenizing by whitespace, Jaccard over those
sets, the same length term and weights. -/
def specSimilarity (a b : List Char) : ℚ :=
  if a = b then 1000
  else
    let A := (wsTokens a).toFinset
    let B := (wsTokens b).toFinset
    let jaccard : ℚ := if (A ∪ B).card = 0 then 0 else ((A ∩ B).card : ℚ) / ((A ∪ B).card : ℚ)
    let lenDiff : ℚ := |(a.length : ℚ) - (b.length : ℚ)|
    jaccard * (7 / 10) + (1 / (1 + lenDiff * (1 / 10))) * (3 / 10)

/-- The last character, if any, is not whitespace (true of every
trimmed string). -/
def lastOk (u : List Char) : Prop :=
  ∀ c, u.getLast? = some c → isWS c = false

/-- The candidate chosen by the context branch (SelectionLogic.js
lines 47-62): the occurrence-index entry of the valid candidates if in
range, else the first valid candidate. -/
def contextChoice (raw ctx : List Char) (occ : Int) (cands : List Cand) : Cand :=
  let valid := validCandidates (cands.map (fun c => (c, scoreCand raw (cleanWS ctx) c)))
  if 0 ≤ occ ∧ occ < (valid.length : Int) then (valid.getD occ.toNat (⟨0, 0, []⟩, 0)).1
  else (valid.getD 0 (⟨0, 0, []⟩, 0)).1

/-!
## Invariants of the Stripper/Mapper (C2, C5)
-/

/-- The mapper invariant: the position map and the stripped text have
equal length and every map entry points at the raw character that was
copied. -/
def Paired (raw : List Char) (m : List Nat) (s : List Char) : Prop :=
  m.length = s.length ∧ ∀ pr ∈ m.zip s, raw[pr.1]? = some pr.2

/-- A produced (map, stripped) piece: paired with the raw text, all
indices inside `[lo, hi)`, and strictly increasing. -/
def GoodPiece (raw : List Char) (lo hi : Nat) (pr : List Nat × List Char) : Prop :=
  Paired raw pr.1 pr.2 ∧ (∀ j ∈ pr.1, lo ≤ j ∧ j < hi) ∧ pr.1.Pairwise (· < ·)

/-! ### Theorems -/

theorem pickResult_isSome (raw : List Char) (context : Option (List Char))
    (occ : Int) (c : Cand) (cs : List Cand) :
    (pickResult raw context occ (c :: cs)).isSome := by
  unfold pickResult
  cases context with
  | none => rfl
  | some ctx =>
    by_cases hctx : ctx = []
    · simp [hctx]
    · simp only [hctx, if_false]
      repeat' split <;> simp

/-!
## Lemmas about the whitespace-tolerant matcher
-/

theorem matchAtoms_le : ∀ (p : List Atom) (t : List Char) (n : Nat),
    matchAtoms p t = some n → n ≤ t.length := by
  intro p t
  induction t generalizing p with
  | nil =>
    intro n h
    match p with
    | [] => simp [matchAtoms] at h; omega
    | Atom.lit c :: ps => simp [matchAtoms] at h
    | Atom.ws :: ps => simp [matchAtoms] at h
  | cons d ds ih =>
    intro n h
    match p with
    | [] => simp [matchAtoms] at h; omega
    | Atom.lit c :: ps =>
      simp only [matchAtoms] at h
      split at h
      · match hm : matchAtoms ps ds with
        | some m => rw [hm] at h; simp at h; have := ih ps m hm; simp; omega
        | none => rw [hm] at h; simp at h
      · simp at h
    | Atom.ws :: ps =>
      simp only [matchAtoms] at h
      split at h
      · split at h
        · next m hm =>
          have := ih (Atom.ws :: ps) m hm
          simp at h; simp; omega
        · match hm : matchAtoms ps ds with
          | some m => rw [hm] at h; simp at h; have := ih ps m hm; simp; omega
          | none => rw [hm] at h; simp at h
      · simp at h

theorem matchAtoms_one_le : ∀ (a : Atom) (p : List Atom) (t : List Char) (n : Nat),
    matchAtoms (a :: p) t = some n → 1 ≤ n := by
  intro a p t n h
  match a, t with
  | Atom.lit c, [] => simp [matchAtoms] at h
  | Atom.ws, [] => simp [matchAtoms] at h
  | Atom.lit c, d :: ds =>
    simp only [matchAtoms] at h
    split at h
    · match hm : matchAtoms p ds with
      | some m => rw [hm] at h; simp at h; omega
      | none => rw [hm] at h; simp at h
    · simp at h
  | Atom.ws, d :: ds =>
    simp only [matchAtoms] at h
    split at h
    · split at h
      · next m hm => simp at h; omega
      · match hm : matchAtoms p ds with
        | some m => rw [hm] at h; simp at h; omega
        | none => rw [hm] at h; simp at h
    · simp at h

/-- Inversion for a whitespace atom at the head of a `WSMatch`. -/
theorem wsMatch_ws_inv {ps : List Atom} {x : List Char} (h : WSMatch (Atom.ws :: ps) x) :
    ∃ run t, x = run ++ t ∧ run ≠ [] ∧ (∀ c ∈ run, isWS c = true) ∧ WSMatch ps t := by
  cases h with
  | ws run hrun hall hrest => exact ⟨run, _, rfl, hrun, hall, hrest⟩

/-- Soundness: a successful match consumes a set of characters related
to the pattern by `WSMatch`. -/
theorem matchAtoms_wsMatch : ∀ (p : List Atom) (t : List Char) (n : Nat),
    matchAtoms p t = some n → WSMatch p (t.take n) := by
  intro p t
  induction t generalizing p with
  | nil =>
    intro n h
    match p with
    | [] =>
      simp [matchAtoms] at h
      subst h
      exact WSMatch.nil
    | Atom.lit c :: ps => simp [matchAtoms] at h
    | Atom.ws :: ps => simp [matchAtoms] at h
  | cons d ds ih =>
    intro n h
    match p with
    | [] =>
      simp [matchAtoms] at h
      subst h
      exact WSMatch.nil
    | Atom.lit c :: ps =>
      simp only [matchAtoms] at h
      split at h
      · next hd =>
        match hm : matchAtoms ps ds with
        | some m =>
          rw [hm] at h
          simp at h
          subst hd
          rw [← h]
          exact WSMatch.lit (ih ps m hm)
        | none => rw [hm] at h; simp at h
      · simp at h
    | Atom.ws :: ps =>
      simp only [matchAtoms] at h
      split at h
      · next hd =>
        split at h
        · next m hm =>
          simp at h
          have hws := ih (Atom.ws :: ps) m hm
          rw [← h]
          simp only [List.take_succ_cons]
          obtain ⟨run, t', heq, hrun, hall, hrest⟩ := wsMatch_ws_inv hws
          rw [heq]
          have hcons : d :: (run ++ t') = (d :: run) ++ t' := rfl
          rw [hcons]
          exact WSMatch.ws (d :: run) (by simp)
            (by intro c hc; rcases List.mem_cons.mp hc with h1 | h2
                · rw [h1]; exact hd
                · exact hall c h2) hrest
        · match hm : matchAtoms ps ds with
          | some m =>
            rw [hm] at h
            simp at h
            rw [← h]
            simp only [List.take_succ_cons]
            have : d :: List.take m ds = [d] ++ List.take m ds := rfl
            rw [this]
            exact WSMatch.ws [d] (by simp)
              (by intro c hc; simp at hc; rw [hc]; exact hd)
              (ih ps m hm)
          | none => rw [hm] at h; simp at h
      · simp at h

theorem lastOk_nil : lastOk [] := by
  intro c hc
  simp at hc

theorem lastOk_of_cons {c : Char} {cs : List Char} (h : lastOk (c :: cs)) : lastOk cs := by
  intro d hd
  match cs, hd with
  | e :: es, hd =>
    exact h d (by rw [List.getLast?_cons_cons]; exact hd)

theorem head?_dropWhile (p : Char → Bool) :
    ∀ (l : List Char) (c : Char), (l.dropWhile p).head? = some c → p c = false := by
  intro l
  induction l with
  | nil => intro c hc; simp [List.dropWhile] at hc
  | cons a l ih =>
    intro c hc
    by_cases ha : p a
    · rw [List.dropWhile_cons_of_pos ha] at hc
      exact ih c hc
    · rw [List.dropWhile_cons_of_neg ha] at hc
      simp at hc
      rw [← hc]
      simpa using ha

theorem lastOk_jsTrim (s : List Char) : lastOk (jsTrim s) := by
  intro c hc
  unfold jsTrim at hc
  rw [List.getLast?_reverse] at hc
  exact head?_dropWhile isWS _ c hc

/-- Every string decomposes around its trimmed core. -/
theorem exists_trim_decomp (s : List Char) : ∃ p q, s = p ++ jsTrim s ++ q := by
  refine ⟨s.takeWhile isWS, ((s.dropWhile isWS).reverse.takeWhile isWS).reverse, ?_⟩
  have h1 : s.takeWhile isWS ++ s.dropWhile isWS = s :=
    List.takeWhile_append_dropWhile isWS s
  have h2 : (s.dropWhile isWS).reverse.takeWhile isWS ++
      (s.dropWhile isWS).reverse.dropWhile isWS = (s.dropWhile isWS).reverse :=
    List.takeWhile_append_dropWhile isWS (s.dropWhile isWS).reverse
  have h4 := congrArg List.reverse h2
  rw [List.reverse_append, List.reverse_reverse] at h4
  have h3 : s.dropWhile isWS =
      jsTrim s ++ ((s.dropWhile isWS).reverse.takeWhile isWS).reverse := h4.symm
  rw [List.append_assoc, ← h3, h1]

theorem patternOf_ne_nil {s : List Char} (h : jsTrim s ≠ []) : patternOf s ≠ [] := by
  unfold patternOf
  match hu : jsTrim s with
  | [] => exact absurd hu h
  | c :: cs =>
    by_cases hc : isWS c <;> simp [atomsOfAux, hc]

/-- Self-matching: the pattern built from a string whose final
character is not whitespace consumes exactly that string when it is
followed by anything.  The second conjunct is the corresponding
statement with a pending whitespace atom (a run already begun by the
character `w`). -/
theorem selfMatch_main : ∀ (n : Nat) (u rest : List Char), u.length ≤ n → lastOk u →
    matchAtoms (atomsOfAux false u) (u ++ rest) = some u.length ∧
    (∀ w, isWS w = true → u ≠ [] →
      matchAtoms (Atom.ws :: atomsOfAux true u) (w :: (u ++ rest)) = some (u.length + 1)) := by
  intro n
  induction n with
  | zero =>
    intro u rest hlen _
    have hu : u = [] := List.length_eq_zero.mp (Nat.le_zero.mp hlen)
    subst hu
    exact ⟨by simp [atomsOfAux, matchAtoms], by intro w _ hne; exact absurd rfl hne⟩
  | succ n ih =>
    intro u rest hlen hlast
    match u with
    | [] =>
      exact ⟨by simp [atomsOfAux, matchAtoms], by intro w _ hne; exact absurd rfl hne⟩
    | c :: cs =>
      have hlen' : cs.length ≤ n := by simp at hlen; omega
      have hlcs : lastOk cs := lastOk_of_cons hlast
      constructor
      · by_cases hc : isWS c
        · have hcs : cs ≠ [] := by
            intro hnil
            subst hnil
            have := hlast c (by simp)
            rw [hc] at this
            exact Bool.noConfusion this
          have := (ih cs rest hlen' hlcs).2 c hc hcs
          simp only [atomsOfAux, hc, if_true]
          simp only [List.cons_append]
          simpa using this
        · have hrec := (ih cs rest hlen' hlcs).1
          have hc' : isWS c = false := by simpa using hc
          simp only [atomsOfAux, hc', Bool.false_eq_true, if_false, List.cons_append,
            matchAtoms, List.append_eq]
          simp [hrec]
      · intro w hw hne
        by_cases hc : isWS c
        · have hcs : cs ≠ [] := by
            intro hnil
            subst hnil
            have := hlast c (by simp)
            rw [hc] at this
            exact Bool.noConfusion this
          have hrec := (ih cs rest hlen' hlcs).2 c hc hcs
          have hA : atomsOfAux true (c :: cs) = atomsOfAux true cs := by
            simp [atomsOfAux, hc]
          rw [hA, List.cons_append]
          rw [matchAtoms, if_pos hw, hrec]
          simp
        · have hrec := (ih cs rest hlen' hlcs).1
          have hc' : isWS c = false := by simpa using hc
          have hA : atomsOfAux true (c :: cs) = Atom.lit c :: atomsOfAux false cs := by
            simp [atomsOfAux, hc']
          rw [hA, List.cons_append]
          rw [matchAtoms, if_pos hw]
          have hgreedy : matchAtoms (Atom.ws :: (Atom.lit c :: atomsOfAux false cs))
              (c :: (cs ++ rest)) = none := by
            rw [matchAtoms, if_neg]
            simp [hc']
          rw [hgreedy]
          rw [matchAtoms, if_pos rfl, hrec]
          simp

/-!
## Lemmas about the search loops
-/

theorem findFromAux_sound (text : List Char) (p : List Atom) :
    ∀ (fuel pos s e : Nat), findFromAux text p fuel pos = some (s, e) →
      pos ≤ s ∧ ∃ m, matchAtoms p (text.drop s) = some m ∧ e = s + m := by
  intro fuel
  induction fuel with
  | zero => intro pos s e h; simp [findFromAux] at h
  | succ fuel ih =>
    intro pos s e h
    rw [findFromAux] at h
    match hm : matchAtoms p (text.drop pos) with
    | some len =>
      rw [hm] at h
      simp at h
      obtain ⟨h1, h2⟩ := h
      subst h1
      exact ⟨Nat.le_refl _, len, hm, h2.symm⟩
    | none =>
      rw [hm] at h
      have := ih (pos + 1) s e h
      exact ⟨by omega, this.2⟩

theorem findFromAux_succeeds (text : List Char) (p : List Atom) :
    ∀ (fuel pos j m : Nat), pos ≤ j → j < pos + fuel →
      matchAtoms p (text.drop j) = some m → (findFromAux text p fuel pos).isSome := by
  intro fuel
  induction fuel with
  | zero => intro pos j m h1 h2 _; omega
  | succ fuel ih =>
    intro pos j m h1 h2 hm
    rw [findFromAux]
    match hp : matchAtoms p (text.drop pos) with
    | some len => simp
    | none =>
      have hne : pos ≠ j := by
        intro h
        rw [h, hm] at hp
        exact Option.noConfusion hp
      exact ih (pos + 1) j m (by omega) (by omega) hm

theorem execLoop_total (text : List Char) (p : List Atom) (hp : p ≠ []) :
    ∀ (fuel pos : Nat), pos ≤ text.length → text.length + 1 - pos < fuel →
      (execLoop text p fuel pos).isSome := by
  intro fuel
  induction fuel with
  | zero => intro pos h1 h2; omega
  | succ fuel ih =>
    intro pos hpos hfuel
    rw [execLoop]
    match hf : findFrom text p pos with
    | none => simp
    | some (s, e) =>
      obtain ⟨hs, m, hm, he⟩ := findFromAux_sound text p _ pos s e hf
      have hm1 : 1 ≤ m := by
        match p, hp with
        | a :: p', _ => exact matchAtoms_one_le a p' _ m hm
      have hmle : m ≤ text.length - s := by
        have := matchAtoms_le p _ m hm
        simpa using this
      have hse : e ≤ text.length := by omega
      have := ih e hse (by omega)
      simpa using this

theorem execLoop_cons (text : List Char) (p : List Atom) (fuel pos s e : Nat)
    (l : List (Nat × Nat)) (hf : findFrom text p pos = some (s, e))
    (hrest : execLoop text p fuel e = some l) :
    execLoop text p (fuel + 1) pos = some ((s, e) :: l) := by
  rw [execLoop, hf]
  simp [hrest]

/-- If the trimmed snippet occurs in the text, the exact search finds a
first candidate, and that candidate's span is a real match of the
whitespace-tolerant pattern. -/
theorem findAll_nonempty (T S : List Char) (hS : jsTrim S ≠ [])
    (hocc : ∃ a b, T = a ++ jsTrim S ++ b) :
    ∃ s e l, findAllCandidates T S = some (⟨s, e, listExtract T s e⟩ :: l) ∧
      matchAtoms (patternOf S) (T.drop s) = some (e - s) := by
  obtain ⟨a, b, hT⟩ := hocc
  have hTassoc : T = a ++ (jsTrim S ++ b) := by rw [hT, List.append_assoc]
  have hmatchj : matchAtoms (patternOf S) (T.drop a.length) = some (jsTrim S).length := by
    rw [hTassoc, List.drop_left]
    exact (selfMatch_main (jsTrim S).length (jsTrim S) b (Nat.le_refl _) (lastOk_jsTrim S)).1
  have hjle : a.length ≤ T.length := by rw [hTassoc]; simp
  have hfindsome : (findFrom T (patternOf S) 0).isSome := by
    unfold findFrom
    exact findFromAux_succeeds T (patternOf S) (T.length + 1 - 0) 0 a.length
      (jsTrim S).length (Nat.zero_le _) (by omega) hmatchj
  obtain ⟨⟨s, e⟩, hf⟩ := Option.isSome_iff_exists.mp hfindsome
  obtain ⟨hs0, m, hm, he⟩ := findFromAux_sound T (patternOf S) _ 0 s e hf
  have hm1 : 1 ≤ m := by
    match hpo : patternOf S, patternOf_ne_nil hS with
    | a' :: p', _ =>
      rw [hpo] at hm
      exact matchAtoms_one_le a' p' _ m hm
  have hmle : m ≤ T.length - s := by
    have := matchAtoms_le (patternOf S) _ m hm
    simpa using this
  have hrest : (execLoop T (patternOf S) (T.length + 1) e).isSome :=
    execLoop_total T (patternOf S) (patternOf_ne_nil hS) (T.length + 1) e (by omega) (by omega)
  obtain ⟨l', hl'⟩ := Option.isSome_iff_exists.mp hrest
  have hexec : execLoop T (patternOf S) (T.length + 2) 0 = some ((s, e) :: l') :=
    execLoop_cons T (patternOf S) (T.length + 1) 0 s e l' hf hl'
  refine ⟨s, e, l'.map (fun se => ⟨se.1, se.2, listExtract T se.1 se.2⟩), ?_, ?_⟩
  · unfold findAllCandidates
    rw [hexec]
    rfl
  · rw [hm]
    congr 1
    omega

/-- C1.  For all raw text `T` and any snippet `S` that is non-empty
after trimming and appears verbatim in `T`, `locate(T, S)` returns a
non-null span whose substring equals `S` modulo whitespace
normalization (each maximal whitespace run of the trimmed snippet
matches one-or-more whitespace characters of `T`; leading/trailing
whitespace of `S` is removed by the trim). -/
theorem C1_locate_verbatim (T S a b : List Char) (hS : jsTrim S ≠ [])
    (hT : T = a ++ S ++ b) :
    ∃ r : LocResult, locateSelection T S none 0 = some (some r) ∧
      WSMatch (patternOf S) (listExtract T r.start r.stop) := by
  obtain ⟨p, q, hdec⟩ := exists_trim_decomp S
  have hocc : ∃ a' b', T = a' ++ jsTrim S ++ b' := by
    refine ⟨a ++ p, q ++ b, ?_⟩
    rw [hT]
    conv_lhs => rw [hdec]
    simp [List.append_assoc]
  obtain ⟨s, e, l, hfind, hmatch⟩ := findAll_nonempty T S hS hocc
  refine ⟨⟨T, s, e⟩, ?_, ?_⟩
  · unfold locateSelection
    rw [hfind]
    simp [pickResult]
  · have hws := matchAtoms_wsMatch (patternOf S) (T.drop s) (e - s) hmatch
    exact hws

/-- Witness for C1 at a concrete input: `T = "ab"`, `S = "b"`,
occurring as `"a" ++ "b" ++ ""`. -/
theorem C1_locate_verbatim_witness :
    ∃ r : LocResult, locateSelection "ab".data "b".data none 0 = some (some r) ∧
      WSMatch (patternOf "b".data) (listExtract "ab".data r.start r.stop) :=
  C1_locate_verbatim "ab".data "b".data "a".data [] (by decide) (by decide)

/-- C8 (code bug).  For a snippet that is empty after trimming, the
search pattern is empty; the JS `exec` loop then matches the empty
string at position 0 without ever advancing `lastIndex`, so
`findAllCandidates` — and with it `locateSelection` — never
terminates (modelled by `none` at every fuel), instead of producing
zero matches and a null result as the spec states. -/
theorem C8_empty_snippet_diverges :
    jsTrim " ".data = [] ∧ patternOf " ".data = [] ∧
    (∀ fuel, execLoop "a".data (patternOf " ".data) fuel 0 = none) ∧
    findAllCandidates "a".data " ".data = none ∧
    locateSelection "a".data " ".data none 0 = none := by
  have hpat : patternOf " ".data = [] := by decide
  have hloop : ∀ fuel, execLoop "a".data ([] : List Atom) fuel 0 = none := by
    intro fuel
    induction fuel with
    | zero => rfl
    | succ fuel ih =>
      rw [execLoop]
      have hf : findFrom "a".data ([] : List Atom) 0 = some (0, 0) := rfl
      rw [hf]
      simp [ih]
  refine ⟨by decide, hpat, ?_, ?_, ?_⟩
  · intro fuel
    rw [hpat]
    exact hloop fuel
  · unfold findAllCandidates
    rw [hpat, hloop]
    rfl
  · unfold locateSelection
    unfold findAllCandidates
    rw [hpat, hloop]
    rfl

/-- C4.  `locate` returns null exactly when both the exact search and
the stripped-projection search yield zero candidates; and whenever the
exact search yields any candidate, the result is computed from the
exact candidates alone (the stripped pass is skipped). -/
theorem C4_null_iff_and_skip (raw s : List Char) (ctx : Option (List Char)) (occ : Int) :
    (∀ res, locateSelection raw s ctx occ = some res →
      (res = none ↔
        (findAllCandidates raw s = some [] ∧ findCandidatesStripped raw s = some []))) ∧
    (∀ cs, findAllCandidates raw s = some cs → cs ≠ [] →
      locateSelection raw s ctx occ = some (pickResult raw ctx occ cs)) := by
  constructor
  · intro res hres
    unfold locateSelection at hres
    split at hres
    · exact Option.noConfusion hres
    next exact_ hx =>
      split at hres
      · exact Option.noConfusion hres
      next cands hy =>
        have hres' : res = pickResult raw ctx occ cands :=
          (Option.some.injEq _ _ ▸ hres).symm
        by_cases hlen : exact_.length = 0
        · rw [if_pos hlen] at hy
          have hnil : exact_ = [] := List.length_eq_zero.mp hlen
          subst hnil
          match cands, hy, hres' with
          | [], hy, hres' =>
            constructor
            · intro _; exact ⟨hx, hy⟩
            · intro _; rw [hres']; rfl
          | c :: cs', hy, hres' =>
            have hsome := pickResult_isSome raw ctx occ c cs'
            constructor
            · intro hnone
              rw [hnone] at hres'
              rw [← hres'] at hsome
              simp at hsome
            · intro ⟨_, h2⟩
              rw [hy] at h2
              simp at h2
        · rw [if_neg hlen] at hy
          have hcands : cands = exact_ := by
            injection hy with h
            exact h.symm
          subst hcands
          have hne : cands ≠ [] := fun h => hlen (by rw [h]; rfl)
          obtain ⟨c, cs', rfl⟩ := List.exists_cons_of_ne_nil hne
          have hsome := pickResult_isSome raw ctx occ c cs'
          constructor
          · intro hnone
            rw [hnone] at hres'
            rw [← hres'] at hsome
            simp at hsome
          · intro ⟨h1, _⟩
            rw [hx] at h1
            simp at h1
  · intro cs hcs hne
    unfold locateSelection
    rw [hcs]
    have hlen : ¬ cs.length = 0 := by
      intro h
      exact hne (List.length_eq_zero.mp h)
    simp only [if_neg hlen]

/-- Witness for C4 at `raw = "a"`, `snippet = "a"`. -/
theorem C4_null_iff_and_skip_witness :
    ((some (LocResult.mk "a".data 0 1) : Option LocResult) = none ↔
      (findAllCandidates "a".data "a".data = some [] ∧
        findCandidatesStripped "a".data "a".data = some [])) ∧
    locateSelection "a".data "a".data none 0 =
      some (pickResult "a".data none 0 [⟨0, 1, "a".data⟩]) :=
  ⟨(C4_null_iff_and_skip "a".data "a".data none 0).1 (some ⟨"a".data, 0, 1⟩) (by decide),
   (C4_null_iff_and_skip "a".data "a".data none 0).2 [⟨0, 1, "a".data⟩] (by decide)
     (by decide)⟩

/-!
## Score positivity and the threshold filter
-/

theorem calculateSimilarity_nonneg (a b : List Char) : 0 ≤ calculateSimilarity a b := by
  unfold calculateSimilarity
  split
  · norm_num
  · apply add_nonneg
    · apply mul_nonneg _ (by norm_num)
      split
      · exact le_refl 0
      · exact div_nonneg (Nat.cast_nonneg _) (Nat.cast_nonneg _)
    · apply mul_nonneg _ (by norm_num)
      apply div_nonneg (by norm_num)
      have habs : (0 : ℚ) ≤ |(a.length : ℚ) - (b.length : ℚ)| := abs_nonneg _
      linarith

theorem foldl_max_le_init (x : ℚ) (xs : List ℚ) : x ≤ xs.foldl max x := by
  induction xs generalizing x with
  | nil => exact le_refl x
  | cons y ys ih =>
    calc x ≤ max x y := le_max_left x y
      _ ≤ (y :: ys).foldl max x := by simpa using ih (max x y)

theorem le_foldl_max (xs : List ℚ) (y : ℚ) : y ∈ xs → ∀ x, y ≤ xs.foldl max x := by
  induction xs with
  | nil => intro h; simp at h
  | cons z zs ih =>
    intro h x
    rcases List.mem_cons.mp h with h1 | h2
    · subst h1
      calc y ≤ max x y := le_max_right x y
        _ ≤ zs.foldl max (max x y) := foldl_max_le_init _ _
        _ = (y :: zs).foldl max x := by simp
    · simpa using ih h2 (max x z)

theorem foldl_max_mem (x : ℚ) (xs : List ℚ) : xs.foldl max x = x ∨ xs.foldl max x ∈ xs := by
  induction xs generalizing x with
  | nil => exact Or.inl rfl
  | cons y ys ih =>
    have h1 : (y :: ys).foldl max x = ys.foldl max (max x y) := by simp
    rcases ih (max x y) with h | h
    · rcases max_choice x y with hx | hy
      · exact Or.inl (by rw [h1, h, hx])
      · exact Or.inr (by rw [h1, h, hy]; simp)
    · exact Or.inr (by rw [h1]; simp [h])

theorem maxScoreQ_spec (q : ℚ) (qs : List ℚ) :
    maxScoreQ (q :: qs) ∈ (q :: qs) ∧ ∀ y ∈ (q :: qs), y ≤ maxScoreQ (q :: qs) := by
  constructor
  · unfold maxScoreQ
    rcases foldl_max_mem q qs with h | h
    · simp [h]
    · simp [h]
  · intro y hy
    unfold maxScoreQ
    rcases List.mem_cons.mp hy with h1 | h2
    · subst h1; exact foldl_max_le_init _ _
    · exact le_foldl_max _ _ h2 _

/-- The threshold filter keeps at least the best-scoring candidate, so
it never empties a nonempty scored list (scores are nonnegative in
every use). -/
theorem validCandidates_ne_nil (scored : List (Cand × ℚ)) (hne : scored ≠ [])
    (hpos : ∀ p ∈ scored, 0 ≤ p.2) : validCandidates scored ≠ [] := by
  obtain ⟨p0, rest, rfl⟩ := List.exists_cons_of_ne_nil hne
  unfold validCandidates
  have hmap : (p0 :: rest).map (·.2) = p0.2 :: rest.map (·.2) := rfl
  rw [hmap]
  obtain ⟨hmem, hub⟩ := maxScoreQ_spec p0.2 (rest.map (·.2))
  set best := maxScoreQ (p0.2 :: rest.map (·.2)) with hbest
  have hbmem : ∃ pq ∈ p0 :: rest, pq.2 = best := by
    rcases List.mem_cons.mp hmem with h1 | h2
    · exact ⟨p0, by simp, h1.symm⟩
    · obtain ⟨pq, hpq, hpq2⟩ := List.mem_map.mp h2
      exact ⟨pq, List.mem_cons_of_mem _ hpq, hpq2⟩
  obtain ⟨pq, hpqmem, hpq2⟩ := hbmem
  have hbest0 : 0 ≤ best := by rw [← hpq2]; exact hpos pq hpqmem
  have hth : best * (17 / 20) ≤ pq.2 := by
    rw [hpq2]
    exact mul_le_of_le_one_right hbest0 (by norm_num)
  apply List.ne_nil_of_mem (a := pq)
  rw [List.mem_filter]
  exact ⟨hpqmem, by simpa using hth⟩

/-- C3 counterexample: with a supplied but empty context string the
scoring branch is skipped (JS truthiness), so `locate` returns the
first candidate, not the occurrence selected by the threshold filter:
here the filter keeps both candidates and `occurrenceIndex = 1` names
the candidate at offset 3, but the call returns the span (0, 2). -/
theorem C3_cex_empty_context :
    locateSelection "ab\nab".data "ab".data (some []) 1 =
      some (some ⟨"ab\nab".data, 0, 2⟩) ∧
    findAllCandidates "ab\nab".data "ab".data =
      some [⟨0, 2, "ab".data⟩, ⟨3, 5, "ab".data⟩] ∧
    (validCandidates ([(⟨0, 2, "ab".data⟩ : Cand), ⟨3, 5, "ab".data⟩].map
        (fun c => (c, scoreCand "ab\nab".data (cleanWS []) c)))).length = 2 ∧
    ((validCandidates ([(⟨0, 2, "ab".data⟩ : Cand), ⟨3, 5, "ab".data⟩].map
        (fun c => (c, scoreCand "ab\nab".data (cleanWS []) c)))).getD 1
      (⟨0, 0, []⟩, 0)).1.start = 3 := by
  have hx : 0 ≤ calculateSimilarity "ab".data [] := calculateSimilarity_nonneg _ _
  have hth : calculateSimilarity "ab".data [] * (17 / 20) ≤ calculateSimilarity "ab".data [] :=
    mul_le_of_le_one_right hx (by norm_num)
  have hmap : ([(⟨0, 2, "ab".data⟩ : Cand), ⟨3, 5, "ab".data⟩].map
      (fun c => (c, scoreCand "ab\nab".data (cleanWS []) c))) =
      [((⟨0, 2, "ab".data⟩ : Cand), calculateSimilarity "ab".data []),
       ((⟨3, 5, "ab".data⟩ : Cand), calculateSimilarity "ab".data [])] := rfl
  have hvalid : validCandidates ([(⟨0, 2, "ab".data⟩ : Cand), ⟨3, 5, "ab".data⟩].map
      (fun c => (c, scoreCand "ab\nab".data (cleanWS []) c))) =
      [((⟨0, 2, "ab".data⟩ : Cand), calculateSimilarity "ab".data []),
       ((⟨3, 5, "ab".data⟩ : Cand), calculateSimilarity "ab".data [])] := by
    rw [hmap]
    simp only [validCandidates, List.map_cons, List.map_nil, maxScoreQ, List.foldl, max_self]
    simp [List.filter, hth]
  exact ⟨by decide, by decide, by rw [hvalid]; rfl, by rw [hvalid]; rfl⟩

theorem scoreCand_nonneg (raw ctx : List Char) (c : Cand) : 0 ≤ scoreCand raw ctx c :=
  calculateSimilarity_nonneg _ _

/-- C3 (amended).  When the supplied context string is nonempty and at
least one candidate exists, every candidate is scored against the
whitespace-collapsed context, the threshold is 0.85 times the best
score, the valid set is never empty, the occurrence index selects
within it with fallback to its first entry, and the call returns that
span (never null, never an error); for scores [10, 9, 9, 2] the valid
set is exactly the first three entries.  The amendment: a supplied but
*empty* context string is falsy in JavaScript and skips this whole
branch (see the counterexample). -/
theorem C3_amended_context_selection (raw snippet ctx : List Char) (occ : Int)
    (cands : List Cand) (hfind : findAllCandidates raw snippet = some cands)
    (hne : cands ≠ []) (hctx : ctx ≠ []) :
    validCandidates (cands.map (fun c => (c, scoreCand raw (cleanWS ctx) c))) ≠ [] ∧
    locateSelection raw snippet (some ctx) occ = some (some
      ⟨raw, (contextChoice raw ctx occ cands).start, (contextChoice raw ctx occ cands).stop⟩) ∧
    validCandidates [((⟨0, 0, []⟩ : Cand), (10 : ℚ)), (⟨1, 0, []⟩, 9), (⟨2, 0, []⟩, 9),
        (⟨3, 0, []⟩, 2)] =
      [((⟨0, 0, []⟩ : Cand), (10 : ℚ)), (⟨1, 0, []⟩, 9), (⟨2, 0, []⟩, 9)] := by
  have hvne : validCandidates (cands.map (fun c => (c, scoreCand raw (cleanWS ctx) c))) ≠ [] := by
    apply validCandidates_ne_nil
    · intro h
      exact hne (List.map_eq_nil_iff.mp h)
    · intro p hp
      obtain ⟨c, _, rfl⟩ := List.mem_map.mp hp
      exact scoreCand_nonneg raw (cleanWS ctx) c
  refine ⟨hvne, ?_, ?_⟩
  · have hlen : ¬ cands.length = 0 := by
      intro h
      exact hne (List.length_eq_zero.mp h)
    have hstep : locateSelection raw snippet (some ctx) occ =
        some (pickResult raw (some ctx) occ cands) := by
      unfold locateSelection
      rw [hfind]
      simp only [if_neg hlen]
    rw [hstep]
    obtain ⟨c0, cs', rfl⟩ := List.exists_cons_of_ne_nil hne
    simp only [pickResult, contextChoice]
    rw [if_neg hctx]
    by_cases hin : 0 ≤ occ ∧ occ <
        ((validCandidates ((c0 :: cs').map
          (fun c => (c, scoreCand raw (cleanWS ctx) c)))).length : Int)
    · rw [if_pos hin, if_pos hin]
    · rw [if_neg hin, if_neg hin]
      have hpos : 0 < (validCandidates ((c0 :: cs').map
          (fun c => (c, scoreCand raw (cleanWS ctx) c)))).length :=
        List.length_pos.mpr hvne
      rw [if_pos hpos]
  · simp only [validCandidates, List.map_cons, List.map_nil, maxScoreQ, List.foldl]
    norm_num [max_def, List.filter_cons, List.filter_nil]

/-- Witness for the amended C3: three identical list rows, occurrence
index 1 selects the second valid candidate. -/
theorem C3_amended_context_selection_witness :
    validCandidates ([(⟨0, 2, "ab".data⟩ : Cand), ⟨3, 5, "ab".data⟩].map
      (fun c => (c, scoreCand "ab\nab".data (cleanWS "ab".data) c))) ≠ [] ∧
    locateSelection "ab\nab".data "ab".data (some "ab".data) 1 = some (some
      ⟨"ab\nab".data,
       (contextChoice "ab\nab".data "ab".data 1 [⟨0, 2, "ab".data⟩, ⟨3, 5, "ab".data⟩]).start,
       (contextChoice "ab\nab".data "ab".data 1 [⟨0, 2, "ab".data⟩, ⟨3, 5, "ab".data⟩]).stop⟩) ∧
    validCandidates [((⟨0, 0, []⟩ : Cand), (10 : ℚ)), (⟨1, 0, []⟩, 9), (⟨2, 0, []⟩, 9),
        (⟨3, 0, []⟩, 2)] =
      [((⟨0, 0, []⟩ : Cand), (10 : ℚ)), (⟨1, 0, []⟩, 9), (⟨2, 0, []⟩, 9)] :=
  C3_amended_context_selection "ab\nab".data "ab".data "ab".data 1
    [⟨0, 2, "ab".data⟩, ⟨3, 5, "ab".data⟩] (by decide) (by decide) (by decide)

/-!
## The similarity formula as set cardinalities (C7)
-/

theorem dedup_filter_mem_length (l₁ l₂ : List (List Char)) :
    (l₂.dedup.filter (fun t => t ∈ l₁.dedup)).length = (l₁.toFinset ∩ l₂.toFinset).card := by
  have h1 : (l₂.dedup.filter (fun t => t ∈ l₁.dedup)).Nodup := (List.nodup_dedup l₂).filter _
  rw [← List.toFinset_card_of_nodup h1]
  congr 1
  ext x
  simp only [List.mem_toFinset, List.mem_filter, List.mem_dedup, Finset.mem_inter,
    decide_eq_true_eq]
  exact and_comm

theorem dedup_append_length (l₁ l₂ : List (List Char)) :
    ((l₁ ++ l₂).dedup).length = (l₁.toFinset ∪ l₂.toFinset).card := by
  rw [← List.toFinset_card_of_nodup (List.nodup_dedup _)]
  congr 1
  ext x
  simp [List.mem_dedup, List.mem_toFinset, List.mem_append]

/-- C7 (amended).  `similarity` returns 1000 on identical strings (in
particular on `(a, a)`); otherwise it is
`0.7 * J + 0.3 * (1 / (1 + 0.1 * |len a - len b|))` where `J` is the
Jaccard similarity over the *sets* (not bags) of tokens — but the
tokens are obtained by JavaScript `split(' ')` (cutting on single
space characters, keeping empty tokens), not by tokenizing on general
whitespace as the claim words it; the two token notions agree on the
whitespace-collapsed trimmed strings this metric is applied to, but
not on all strings (see the counterexample). -/
theorem C7_amended_similarity_formula (a b : List Char) :
    calculateSimilarity a a = 1000 ∧
    calculateSimilarity a b = (if a = b then (1000 : ℚ) else
      ((if ((splitChar ' ' a).toFinset ∪ (splitChar ' ' b).toFinset).card = 0 then (0 : ℚ)
        else (((splitChar ' ' a).toFinset ∩ (splitChar ' ' b).toFinset).card : ℚ) /
          (((splitChar ' ' a).toFinset ∪ (splitChar ' ' b).toFinset).card : ℚ)) * (7 / 10) +
       (1 / (1 + |(a.length : ℚ) - (b.length : ℚ)| * (1 / 10))) * (3 / 10))) := by
  constructor
  · simp [calculateSimilarity]
  · by_cases hab : a = b
    · simp [calculateSimilarity, hab]
    · simp only [calculateSimilarity, if_neg hab]
      rw [dedup_filter_mem_length (splitChar ' ' a) (splitChar ' ' b),
        dedup_append_length (splitChar ' ' a) (splitChar ' ' b)]

/-- C7 counterexample.  For `a = "a "` and `b = "a"` the code's
`split(' ')` tokens of `a` are `["a", ""]` while tokenizing by
whitespace gives `["a"]`; the code returns 137/220 where the claim's
formula gives 107/110. -/
theorem C7_cex_tokenization :
    ("a ".data ≠ "a".data) ∧
    calculateSimilarity "a ".data "a".data = 137 / 220 ∧
    specSimilarity "a ".data "a".data = 107 / 110 ∧
    calculateSimilarity "a ".data "a".data ≠ specSimilarity "a ".data "a".data := by
  have hlhs : calculateSimilarity "a ".data "a".data = 137 / 220 := by
    simp only [calculateSimilarity, if_neg (by decide : ¬ "a ".data = "a".data)]
    rw [show ((splitChar ' ' "a".data).dedup.filter
        (fun t => t ∈ (splitChar ' ' "a ".data).dedup)).length = 1 from by decide]
    rw [show ((splitChar ' ' "a ".data ++ splitChar ' ' "a".data).dedup).length = 2 from by decide]
    rw [show ("a ".data.length : ℚ) = 2 from by norm_num [show "a ".data.length = 2 from rfl]]
    rw [show ("a".data.length : ℚ) = 1 from by norm_num [show "a".data.length = 1 from rfl]]
    rw [show |(2 : ℚ) - 1| = 1 from by rw [abs_of_nonneg (by norm_num : (0:ℚ) ≤ 2 - 1)]; norm_num]
    norm_num
  have hrhs : specSimilarity "a ".data "a".data = 107 / 110 := by
    simp only [specSimilarity, if_neg (by decide : ¬ "a ".data = "a".data)]
    rw [show wsTokens "a ".data = [['a']] from rfl, show wsTokens "a".data = [['a']] from rfl]
    simp only [List.toFinset_cons, List.toFinset_nil, insert_emptyc_eq, Finset.inter_self,
      Finset.union_self, Finset.card_singleton]
    rw [show ("a ".data.length : ℚ) = 2 from by norm_num [show "a ".data.length = 2 from rfl]]
    rw [show ("a".data.length : ℚ) = 1 from by norm_num [show "a".data.length = 1 from rfl]]
    rw [show |(2 : ℚ) - 1| = 1 from by rw [abs_of_nonneg (by norm_num : (0:ℚ) ≤ 2 - 1)]; norm_num]
    norm_num
  refine ⟨by decide, hlhs, hrhs, ?_⟩
  rw [hlhs, hrhs]
  norm_num

theorem goodPiece_nil (raw : List Char) (lo hi : Nat) :
    GoodPiece raw lo hi ([], []) := by
  refine ⟨⟨rfl, ?_⟩, ?_, ?_⟩ <;> simp

theorem goodPiece_mono {raw : List Char} {lo hi lo' hi' : Nat} {pr : List Nat × List Char}
    (h : GoodPiece raw lo hi pr) (h1 : lo' ≤ lo) (h2 : hi ≤ hi') : GoodPiece raw lo' hi' pr := by
  obtain ⟨hp, hb, hs⟩ := h
  refine ⟨hp, ?_, hs⟩
  intro j hj
  have := hb j hj
  omega

theorem goodPiece_append {raw : List Char} {lo mid hi : Nat} {pr1 pr2 : List Nat × List Char}
    (hlm : lo ≤ mid) (hmh : mid ≤ hi)
    (h1 : GoodPiece raw lo mid pr1) (h2 : GoodPiece raw mid hi pr2) :
    GoodPiece raw lo hi (pr1.1 ++ pr2.1, pr1.2 ++ pr2.2) := by
  obtain ⟨⟨hl1, hz1⟩, hb1, hs1⟩ := h1
  obtain ⟨⟨hl2, hz2⟩, hb2, hs2⟩ := h2
  refine ⟨⟨by simp [hl1, hl2], ?_⟩, ?_, ?_⟩
  · intro pr hpr
    rw [List.zip_append hl1] at hpr
    rcases List.mem_append.mp hpr with h | h
    · exact hz1 pr h
    · exact hz2 pr h
  · intro j hj
    rcases List.mem_append.mp hj with h | h
    · have := hb1 j h; omega
    · have := hb2 j h; omega
  · rw [List.pairwise_append]
    refine ⟨hs1, hs2, ?_⟩
    intro x hx y hy
    have := hb1 x hx
    have := hb2 y hy
    omega

theorem copyRun_good (raw : List Char) :
    ∀ (count start : Nat), start + count ≤ raw.length →
    GoodPiece raw start (start + count) (copyRun raw start count) := by
  intro count
  induction count with
  | zero => intro start _; exact goodPiece_nil raw start (start + 0)
  | succ count ih =>
    intro start hle
    have hstart : start < raw.length := by omega
    have hrest := ih (start + 1) (by omega)
    obtain ⟨⟨hl, hz⟩, hb, hs⟩ := hrest
    rw [copyRun]
    refine ⟨⟨by simp [hl], ?_⟩, ?_, ?_⟩
    · intro pr hpr
      rw [List.zip_cons_cons] at hpr
      rcases List.mem_cons.mp hpr with h | h
      · subst h
        simp only
        rw [List.getElem?_eq_getElem hstart]
        congr 1
        exact (List.getD_eq_getElem raw ' ' hstart).symm
      · exact hz pr h
    · intro j hj
      rcases List.mem_cons.mp hj with h | h
      · omega
      · have := hb j h; omega
    · refine List.Pairwise.cons ?_ hs
      intro j hj
      have := hb j hj
      omega

theorem extractVis_good (raw : List Char) :
    ∀ (fuel i hi : Nat), hi ≤ raw.length →
    GoodPiece raw i hi (extractVis raw fuel i hi) := by
  intro fuel
  induction fuel with
  | zero => intro i hi _; exact goodPiece_nil raw i hi
  | succ fuel ih =>
    intro i hi hle
    rw [extractVis]
    by_cases hih : i < hi
    · rw [if_pos hih]
      by_cases hskip : 0 < isFormattingMarker raw i
      · rw [if_pos hskip]
        exact goodPiece_mono (ih (i + isFormattingMarker raw i) hi hle) (by omega) (le_refl _)
      · rw [if_neg hskip]
        have hrest := ih (i + 1) hi hle
        obtain ⟨⟨hl, hz⟩, hb, hs⟩ := hrest
        have hiraw : i < raw.length := by omega
        refine ⟨⟨by simp [hl], ?_⟩, ?_, ?_⟩
        · intro pr hpr
          rw [List.zip_cons_cons] at hpr
          rcases List.mem_cons.mp hpr with h | h
          · subst h
            simp only
            rw [List.getElem?_eq_getElem hiraw]
            congr 1
            exact (List.getD_eq_getElem raw ' ' hiraw).symm
          · exact hz pr h
        · intro j hj
          rcases List.mem_cons.mp hj with h | h
          · omega
          · have := hb j h; omega
        · refine List.Pairwise.cons ?_ hs
          intro j hj
          have := hb j hj
          omega
    · rw [if_neg hih]
      exact goodPiece_nil raw i hi

theorem reMatch_le : ∀ (fuel : Nat) (rs : List RE) (cs : List Char) (n : Nat),
    reMatch fuel rs cs = some n → n ≤ cs.length := by
  intro fuel
  induction fuel with
  | zero => intro rs cs n h; simp [reMatch] at h
  | succ fuel ih =>
    intro rs cs n h
    match rs, cs with
    | [], cs => simp [reMatch] at h; omega
    | RE.chr c :: rs', [] => simp [reMatch] at h
    | RE.chr c :: rs', d :: ds =>
      simp only [reMatch] at h
      split at h
      · match hm : reMatch fuel rs' ds with
        | some m => rw [hm] at h; simp at h; have := ih rs' ds m hm; simp; omega
        | none => rw [hm] at h; simp at h
      · simp at h
    | RE.cls p :: rs', [] => simp [reMatch] at h
    | RE.cls p :: rs', d :: ds =>
      simp only [reMatch] at h
      split at h
      · match hm : reMatch fuel rs' ds with
        | some m => rw [hm] at h; simp at h; have := ih rs' ds m hm; simp; omega
        | none => rw [hm] at h; simp at h
      · simp at h
    | RE.star p :: rs', [] =>
      simp only [reMatch] at h
      simpa using ih rs' [] n h
    | RE.star p :: rs', d :: ds =>
      simp only [reMatch] at h
      split at h
      · split at h
        · next m hm =>
          simp at h
          have := ih (RE.star p :: rs') ds m hm
          simp
          omega
        · exact ih rs' (d :: ds) n h
      · exact ih rs' (d :: ds) n h
    | RE.plus p :: rs', [] => simp [reMatch] at h
    | RE.plus p :: rs', d :: ds =>
      simp only [reMatch] at h
      split at h
      · match hm : reMatch fuel (RE.star p :: rs') ds with
        | some m => rw [hm] at h; simp at h; have := ih _ ds m hm; simp; omega
        | none => rw [hm] at h; simp at h
      · simp at h
    | RE.opt inner :: rs', cs =>
      simp only [reMatch] at h
      split at h
      · next m hm =>
        have := ih (inner ++ rs') cs m hm
        simp at h
        omega
      · exact ih rs' cs n h
    | RE.alt xs ys :: rs', cs =>
      simp only [reMatch] at h
      split at h
      · next m hm =>
        have := ih (xs ++ rs') cs m hm
        simp at h
        omega
      · exact ih (ys ++ rs') cs n h
    | RE.bnd p lo hi :: rs', [] =>
      simp only [reMatch] at h
      split at h
      · simpa using ih rs' [] n h
      · simp at h
    | RE.bnd p lo hi :: rs', d :: ds =>
      simp only [reMatch] at h
      split at h
      · split at h
        · next m hm =>
          simp at h
          have := ih _ ds m hm
          simp
          omega
        · split at h
          · exact ih rs' (d :: ds) n h
          · simp at h
      · split at h
        · exact ih rs' (d :: ds) n h
        · simp at h

theorem grp14_len : ∀ (fuel : Nat) (s : List Char) (n : Nat),
    reMatch fuel grp14 s = some n → n = 2 := by
  intro fuel s n h
  match fuel, s with
  | 0, _ => simp [reMatch] at h
  | fuel + 1, [] => simp [grp14, reMatch] at h
  | fuel + 1, d :: ds =>
    simp only [grp14, reMatch] at h
    split at h
    · match fuel, ds with
      | 0, _ => simp [reMatch] at h
      | fuel' + 1, [] => simp [reMatch] at h
      | fuel' + 1, e :: es =>
        simp only [reMatch] at h
        split at h
        · match fuel' with
          | 0 => simp [reMatch] at h
          | f2 + 1 =>
            simp [reMatch] at h
            omega
        · simp at h
    · simp at h

theorem subIdxAux_lt (needle hay : List Char) (hne : needle ≠ []) :
    ∀ (fuel pos r : Nat), subIdxAux needle hay fuel pos = some r → r < hay.length := by
  intro fuel
  induction fuel with
  | zero => intro pos r h; simp [subIdxAux] at h
  | succ fuel ih =>
    intro pos r h
    rw [subIdxAux] at h
    split at h
    · next hsw =>
      simp at h
      subst h
      by_contra hge
      push_neg at hge
      rw [List.drop_eq_nil_of_le hge] at hsw
      match needle, hne with
      | nc :: ns, _ => simp [startsWithList] at hsw
    · exact ih (pos + 1) r h

theorem subIdx_lt (needle hay : List Char) (hne : needle ≠ []) (r : Nat)
    (h : subIdx needle hay = some r) : r < hay.length :=
  subIdxAux_lt needle hay hne _ 0 r h

theorem tokenAt_nil (text : List Char) (i : Nat) (h : text.drop i = []) :
    tokenAt text i = none := by
  simp only [tokenAt, h]
  rfl

theorem tokenAt_sound (text : List Char) (i g len : Nat) (h : tokenAt text i = some (g, len)) :
    i < text.length ∧ i + len ≤ text.length ∧ (g = 14 → len = 2) := by
  have hlt : i < text.length := by
    by_contra hge
    push_neg at hge
    rw [tokenAt_nil text i (List.drop_eq_nil_of_le hge)] at h
    exact Option.noConfusion h
  simp only [tokenAt] at h
  have hmem : (g, len) ∈ tokenGroups.filterMap
      (fun gr => (reMatch (tokenFuel (text.drop i).length) gr.2 (text.drop i)).map
        ((gr.1, ·))) := by
    match hfm : tokenGroups.filterMap
        (fun gr => (reMatch (tokenFuel (text.drop i).length) gr.2 (text.drop i)).map
          ((gr.1, ·))) with
    | [] => rw [hfm] at h; simp at h
    | a :: t =>
      rw [hfm] at h
      simp at h
      rw [hfm, h]
      simp
  obtain ⟨gp, hgp, hf⟩ := List.mem_filterMap.mp hmem
  obtain ⟨m, hm, hpair⟩ := Option.map_eq_some'.mp hf
  have hg : gp.1 = g := congrArg Prod.fst hpair
  have hlen : m = len := congrArg Prod.snd hpair
  subst hlen
  have hle : m ≤ (text.drop i).length := reMatch_le _ _ _ _ hm
  rw [List.length_drop] at hle
  refine ⟨hlt, by omega, ?_⟩
  intro h14
  simp only [tokenGroups, List.mem_cons, List.not_mem_nil, or_false] at hgp
  rcases hgp with rfl | rfl | rfl | rfl | rfl | rfl | rfl | rfl | rfl | rfl | rfl | rfl |
    rfl | rfl | rfl | rfl | rfl <;>
    first
      | exact absurd (hg.trans h14) (by decide)
      | exact grp14_len _ _ _ hm

theorem addRawText_good (raw : List Char) (ts len a b : Nat)
    (ha : ts ≤ a) (hb : b ≤ ts + len) (hL : ts + len ≤ raw.length) :
    GoodPiece raw ts (ts + len) (addRawText raw a b) := by
  unfold addRawText
  by_cases hab : a < b
  · have hgc := copyRun_good raw (b - a) a (by omega)
    exact goodPiece_mono hgc ha (by omega)
  · have hz : b - a = 0 := by omega
    rw [hz]
    exact goodPiece_nil raw ts (ts + len)

theorem extractVis_good_range (raw : List Char) (ts len fuel a b : Nat)
    (ha : ts ≤ a) (hb : b ≤ ts + len) (hL : ts + len ≤ raw.length) :
    GoodPiece raw ts (ts + len) (extractVis raw fuel a b) :=
  goodPiece_mono (extractVis_good raw fuel a b (by omega)) ha hb

theorem listExtract_length_le (s : List Char) (a b : Nat) :
    (listExtract s a b).length ≤ b - a := by
  simp [listExtract, List.length_take, List.length_drop]

set_option maxHeartbeats 1600000 in

theorem processToken_good (raw : List Char) (ts g len : Nat)
    (hL : ts + len ≤ raw.length) (h14 : g = 14 → len = 2) :
    GoodPiece raw ts (ts + len) (processToken raw ts g len) := by
  have hfl : (listExtract raw ts (ts + len)).length ≤ len := by
    have := listExtract_length_le raw ts (ts + len)
    omega
  delta processToken
  by_cases hg1 : g = 1
  · rw [if_pos hg1]
    show GoodPiece raw ts (ts + len)
      (match subIdx ['|'] (listExtract (listExtract raw ts (ts + len)) 3 (len - 2)) with
       | some pipe => extractVis raw (len + 1) (ts + 3 + pipe + 1) (ts + len - 2)
       | none => extractVis raw (len + 1) (ts + 3) (ts + len - 2))
    cases hsub : subIdx ['|'] (listExtract (listExtract raw ts (ts + len)) 3 (len - 2)) with
    | some pipe =>
      exact extractVis_good_range raw ts len (len + 1) (ts + 3 + pipe + 1) (ts + len - 2)
        (by omega) (by omega) hL
    | none =>
      exact extractVis_good_range raw ts len (len + 1) (ts + 3) (ts + len - 2)
        (by omega) (by omega) hL
  rw [if_neg hg1]
  by_cases hg2 : g = 2
  · rw [if_pos hg2]
    cases hsub : subIdx [']', '['] (listExtract raw ts (ts + len)) with
    | some cb =>
      have hcb := subIdx_lt _ _ (by decide) cb hsub
      exact extractVis_good_range raw ts len (len + 1) (ts + 2) (ts + cb)
        (by omega) (by omega) hL
    | none => exact goodPiece_nil raw ts (ts + len)
  rw [if_neg hg2]
  by_cases hg3 : g = 3
  · rw [if_pos hg3]
    cases hsub : subIdx [']', '('] (listExtract raw ts (ts + len)) with
    | some cb =>
      have hcb := subIdx_lt _ _ (by decide) cb hsub
      exact extractVis_good_range raw ts len (len + 1) (ts + 2) (ts + cb)
        (by omega) (by omega) hL
    | none => exact goodPiece_nil raw ts (ts + len)
  rw [if_neg hg3]
  by_cases hg4 : g = 4
  · rw [if_pos hg4]
    cases hsub : subIdx [']', '['] (listExtract raw ts (ts + len)) with
    | some cb =>
      have hcb := subIdx_lt _ _ (by decide) cb hsub
      exact extractVis_good_range raw ts len (len + 1) (ts + 1) (ts + cb)
        (by omega) (by omega) hL
    | none => exact goodPiece_nil raw ts (ts + len)
  rw [if_neg hg4]
  by_cases hg5 : g = 5
  · rw [if_pos hg5]
    cases hsub : subIdx [']', '('] (listExtract raw ts (ts + len)) with
    | some cb =>
      have hcb := subIdx_lt _ _ (by decide) cb hsub
      exact extractVis_good_range raw ts len (len + 1) (ts + 1) (ts + cb)
        (by omega) (by omega) hL
    | none => exact goodPiece_nil raw ts (ts + len)
  rw [if_neg hg5]
  by_cases hg6 : g = 6
  · rw [if_pos hg6]
    show GoodPiece raw ts (ts + len)
      (match subIdx ['|'] (listExtract (listExtract raw ts (ts + len)) 2 (len - 2)) with
       | some pipe => extractVis raw (len + 1) (ts + 2 + pipe + 1) (ts + len - 2)
       | none => extractVis raw (len + 1) (ts + 2) (ts + len - 2))
    cases hsub : subIdx ['|'] (listExtract (listExtract raw ts (ts + len)) 2 (len - 2)) with
    | some pipe =>
      exact extractVis_good_range raw ts len (len + 1) (ts + 2 + pipe + 1) (ts + len - 2)
        (by omega) (by omega) hL
    | none =>
      exact extractVis_good_range raw ts len (len + 1) (ts + 2) (ts + len - 2)
        (by omega) (by omega) hL
  rw [if_neg hg6]
  by_cases hg7 : g = 7
  · rw [if_pos hg7]
    exact addRawText_good raw ts len (ts + 2) (ts + len - 1) (by omega) (by omega) hL
  rw [if_neg hg7]
  by_cases hg8 : g = 8
  · rw [if_pos hg8]
    exact addRawText_good raw ts len (ts + 2) (ts + len - 2) (by omega) (by omega) hL
  rw [if_neg hg8]
  by_cases hg9 : g = 9
  · rw [if_pos hg9]
    exact addRawText_good raw ts len (ts + 1) (ts + len - 1) (by omega) (by omega) hL
  rw [if_neg hg9]
  by_cases hg10 : g = 10
  · rw [if_pos hg10]
    exact goodPiece_nil raw ts (ts + len)
  rw [if_neg hg10]
  by_cases hg11 : g = 11
  · rw [if_pos hg11]
    exact addRawText_good raw ts len (ts + 1) (ts + len - 1) (by omega) (by omega) hL
  rw [if_neg hg11]
  by_cases hg12 : g = 12
  · rw [if_pos hg12]
    exact addRawText_good raw ts len (ts + 1) (ts + len - 1) (by omega) (by omega) hL
  rw [if_neg hg12]
  by_cases hg13 : g = 13
  · rw [if_pos hg13]
    exact goodPiece_nil raw ts (ts + len)
  rw [if_neg hg13]
  by_cases hg14 : g = 14
  · rw [if_pos hg14]
    have hlen2 : len = 2 := h14 hg14
    have hts1 : ts + 1 < raw.length := by omega
    refine ⟨⟨rfl, ?_⟩, ?_, ?_⟩
    · intro pr hpr
      simp only [List.zip_cons_cons, List.zip_nil_right, List.mem_singleton] at hpr
      subst hpr
      simp only
      rw [List.getElem?_eq_getElem hts1]
      congr 1
      exact (List.getD_eq_getElem raw ' ' hts1).symm
    · intro j hj
      simp only [List.mem_singleton] at hj
      omega
    · simp
  rw [if_neg hg14]
  exact goodPiece_nil raw ts (ts + len)

theorem findTokenAux_sound (text : List Char) :
    ∀ (fuel pos ts g len : Nat), findTokenAux text fuel pos = some (ts, g, len) →
      pos ≤ ts ∧ tokenAt text ts = some (g, len) := by
  intro fuel
  induction fuel with
  | zero => intro pos ts g len h; simp [findTokenAux] at h
  | succ fuel ih =>
    intro pos ts g len h
    rw [findTokenAux] at h
    match hta : tokenAt text pos with
    | some gl =>
      rw [hta] at h
      simp only [Option.some.injEq, Prod.mk.injEq] at h
      obtain ⟨h1, h2, h3⟩ := h
      subst h1
      rw [← h2, ← h3]
      exact ⟨le_refl _, hta⟩
    | none =>
      rw [hta] at h
      have := ih (pos + 1) ts g len h
      exact ⟨by omega, this.2⟩

theorem stripLoop_good (raw : List Char) :
    ∀ (fuel pos : Nat), GoodPiece raw pos raw.length (stripLoop raw fuel pos) := by
  intro fuel
  induction fuel with
  | zero => intro pos; exact goodPiece_nil raw pos raw.length
  | succ fuel ih =>
    intro pos
    rcases hft : findToken raw pos with _ | ⟨ts, g, len⟩
    · rw [stripLoop, hft]
      by_cases hpos : pos ≤ raw.length
      · have hgc := copyRun_good raw (raw.length - pos) pos (by omega)
        exact goodPiece_mono hgc (le_refl _) (by omega)
      · have hz : raw.length - pos = 0 := by omega
        have hgc : GoodPiece raw pos raw.length (copyRun raw pos (raw.length - pos)) := by
          rw [hz]
          exact goodPiece_nil raw pos raw.length
        exact hgc
    · rw [stripLoop, hft]
      obtain ⟨hpts, hta⟩ := findTokenAux_sound raw _ pos ts g len hft
      obtain ⟨hts, htslen, h14⟩ := tokenAt_sound raw ts g len hta
      have hpre := copyRun_good raw (ts - pos) pos (by omega)
      have hpre' : GoodPiece raw pos ts (copyRun raw pos (ts - pos)) := by
        have heq : pos + (ts - pos) = ts := by omega
        rw [heq] at hpre
        exact hpre
      have htok := processToken_good raw ts g len htslen h14
      have hrest := ih (ts + len)
      have happ1 := goodPiece_append (by omega) (by omega) hpre' htok
      have happ2 := goodPiece_append (by omega) (by omega) happ1 hrest
      exact happ2

/-- C2.  The stripped projection satisfies
`len(strippedText) = len(positionMap)` and, for every in-range index,
`rawText[positionMap[i]] = strippedText[i]`. -/
theorem C2_mapper_roundtrip (raw : List Char) (i : Nat) :
    (buildStripped raw).1.length = (buildStripped raw).2.length ∧
    (i < (buildStripped raw).1.length →
      raw[(buildStripped raw).1.getD i 0]? = (buildStripped raw).2[i]?) := by
  have hgood : GoodPiece raw 0 raw.length (buildStripped raw) :=
    stripLoop_good raw (raw.length + 1) 0
  obtain ⟨⟨hl, hz⟩, _, _⟩ := hgood
  refine ⟨hl, ?_⟩
  intro hi
  set m := (buildStripped raw).1 with hm
  set s := (buildStripped raw).2 with hs
  have hi2 : i < s.length := by omega
  have hiz : i < (m.zip s).length := by
    rw [List.length_zip]
    omega
  have hmemz : (m[i], s[i]) ∈ m.zip s := by
    have := @List.getElem_zip _ _ m s i hiz
    rw [← this]
    exact List.getElem_mem hiz
  have hkey := hz (m[i], s[i]) hmemz
  rw [List.getD_eq_getElem m 0 hi, List.getElem?_eq_getElem hi2]
  exact hkey

/-- Witness for C2 at `raw = "ab"`, `i = 0`. -/
theorem C2_mapper_roundtrip_witness :
    (buildStripped "ab".data).1.length = (buildStripped "ab".data).2.length ∧
    "ab".data[(buildStripped "ab".data).1.getD 0 0]? = (buildStripped "ab".data).2[0]? :=
  ⟨(C2_mapper_roundtrip "ab".data 0).1,
   (C2_mapper_roundtrip "ab".data 0).2 (by decide)⟩

/-- C5.  The position map is monotonically non-decreasing (in fact
strictly increasing, hence it never points backward). -/
theorem C5_map_monotone (raw : List Char) (i : Nat)
    (h : i + 1 < (buildStripped raw).1.length) :
    (buildStripped raw).1.getD i 0 ≤ (buildStripped raw).1.getD (i + 1) 0 := by
  have hgood : GoodPiece raw 0 raw.length (buildStripped raw) :=
    stripLoop_good raw (raw.length + 1) 0
  obtain ⟨_, _, hsort⟩ := hgood
  have hpw := List.pairwise_iff_getElem.mp hsort
  have hlt := hpw i (i + 1) (by omega) h (by omega)
  rw [List.getD_eq_getElem _ 0 (by omega : i < (buildStripped raw).1.length),
    List.getD_eq_getElem _ 0 h]
  exact le_of_lt hlt

/-- Witness for C5 at `raw = "ab"`, `i = 0`. -/
theorem C5_map_monotone_witness :
    (buildStripped "ab".data).1.getD 0 0 ≤ (buildStripped "ab".data).1.getD 1 0 :=
  C5_map_monotone "ab".data 0 (by decide)

/-!
## Termination and frame of the span expansion (C9, C10)
-/

theorem startsWithList_length (pre s : List Char) (h : startsWithList pre s = true) :
    pre.length ≤ s.length := by
  induction pre generalizing s with
  | nil => simp
  | cons p ps ih =>
    match s with
    | [] => simp [startsWithList] at h
    | c :: cs =>
      simp only [startsWithList, Bool.and_eq_true] at h
      have := ih cs h.2
      simp
      omega

theorem backDelimScan_bounds (raw : List Char) (stopPos : Nat) :
    ∀ (fuel s0 L : Nat), backDelimScan raw stopPos fuel s0 = some L →
      1 ≤ L ∧ L ≤ stopPos - s0 := by
  intro fuel
  induction fuel with
  | zero => intro s0 L h; simp [backDelimScan] at h
  | succ fuel ih =>
    intro s0 L h
    rw [backDelimScan] at h
    split at h
    · split at h
      · simp at h
        omega
      · have := ih (s0 + 1) L h
        omega
    · simp at h

theorem backDelimAt_bounds (raw : List Char) (e L : Nat) (h : backDelimAt raw e = some L) :
    1 ≤ L ∧ L ≤ e := by
  have := backDelimScan_bounds raw e e 0 L h
  omega

theorem fwdDelimAt_bounds (raw : List Char) (e L : Nat) (h : fwdDelimAt raw e = some L) :
    1 ≤ L ∧ L ≤ (raw.drop e).length := by
  simp only [fwdDelimAt] at h
  split_ifs at h with h1 h2 h3 h4 h5 h6 h7 h8 h9
  · have := startsWithList_length _ _ h1
    simp at h
    simp at this
    simp only [List.length_drop]
    omega
  · have := startsWithList_length _ _ h2
    simp at h
    simp at this
    simp only [List.length_drop]
    omega
  · have := startsWithList_length _ _ h3
    simp at h
    simp at this
    simp only [List.length_drop]
    omega
  · have := startsWithList_length _ _ h4
    simp at h
    simp at this
    simp only [List.length_drop]
    omega
  · have := startsWithList_length _ _ h5
    simp at h
    simp at this
    simp only [List.length_drop]
    omega
  · have := startsWithList_length _ _ h6
    simp at h
    simp at this
    simp only [List.length_drop]
    omega
  · have := startsWithList_length _ _ h7
    simp at h
    simp at this
    simp only [List.length_drop]
    omega
  · rw [Bool.and_eq_true] at h9
    simp only [Option.some.injEq] at h
    have hne : ((raw.drop e).drop (2 + (((raw.drop e).drop 2).takeWhile notRP).length)).head? =
        some ')' := by
      simpa using h9.2
    have hlen : 2 + (((raw.drop e).drop 2).takeWhile notRP).length < (raw.drop e).length := by
      by_contra hge
      push_neg at hge
      rw [List.drop_eq_nil_of_le hge] at hne
      simp at hne
    simp only [List.length_drop] at hlen ⊢
    omega

theorem expandLoop_total (raw : List Char) :
    ∀ (fuel s e : Nat), s + (raw.length - e) < fuel →
      ∃ p : Nat × Nat, expandLoop raw fuel (s, e) = some p ∧
        (expandOnce raw p).2 = false ∧ p.1 ≤ s ∧ e ≤ p.2 ∧ p.2 ≤ max e raw.length := by
  intro fuel
  induction fuel with
  | zero => intro s e h; omega
  | succ fuel ih =>
    intro s e hfuel
    rcases hb : backDelimAt raw s with _ | L <;> rcases hf : fwdDelimAt raw e with _ | L'
    · have hstep : expandOnce raw (s, e) = ((s, e), false) := by
        simp [expandOnce, hb, hf]
      refine ⟨(s, e), ?_, by rw [hstep], le_refl _, le_refl _, le_max_left _ _⟩
      rw [expandLoop]
      simp [hstep]
    · have hFb := fwdDelimAt_bounds raw e L' hf
      rw [List.length_drop] at hFb
      have hstep : expandOnce raw (s, e) = ((s, e + L'), true) := by
        simp [expandOnce, hb, hf]
      have helt : e < raw.length := by omega
      obtain ⟨p, hp, hfix, hp1, hp2, hp3⟩ := ih s (e + L') (by omega)
      refine ⟨p, ?_, hfix, hp1, by omega, by omega⟩
      rw [expandLoop]
      simp only [hstep]
      exact hp
    · have hBb := backDelimAt_bounds raw s L hb
      have hstep : expandOnce raw (s, e) = ((s - L, e), true) := by
        simp [expandOnce, hb, hf]
      obtain ⟨p, hp, hfix, hp1, hp2, hp3⟩ := ih (s - L) e (by omega)
      refine ⟨p, ?_, hfix, by omega, hp2, hp3⟩
      rw [expandLoop]
      simp only [hstep]
      exact hp
    · have hBb := backDelimAt_bounds raw s L hb
      have hFb := fwdDelimAt_bounds raw e L' hf
      rw [List.length_drop] at hFb
      have helt : e < raw.length := by omega
      have hstep : expandOnce raw (s, e) = ((s - L, e + L'), true) := by
        simp [expandOnce, hb, hf]
      obtain ⟨p, hp, hfix, hp1, hp2, hp3⟩ := ih (s - L) (e + L') (by omega)
      refine ⟨p, ?_, hfix, by omega, by omega, by omega⟩
      rw [expandLoop]
      simp only [hstep]
      exact hp

theorem expandLoop_mono (raw : List Char) :
    ∀ (fuel fuel' : Nat) (st p : Nat × Nat), fuel ≤ fuel' →
      expandLoop raw fuel st = some p → expandLoop raw fuel' st = some p := by
  intro fuel
  induction fuel with
  | zero => intro fuel' st p _ h; simp [expandLoop] at h
  | succ fuel ih =>
    intro fuel' st p hle h
    match fuel' with
    | 0 => omega
    | fuel'' + 1 =>
      rw [expandLoop] at h ⊢
      by_cases hgrew : (expandOnce raw st).2 = true
      · rw [if_pos hgrew] at h ⊢
        exact ih fuel'' _ p (by omega) h
      · rw [if_neg hgrew] at h ⊢
        exact h

theorem expandFix_eq_of_loop (raw : List Char) (s e : Nat) (p : Nat × Nat)
    (h : expandLoop raw (s + (raw.length - e) + 1) (s, e) = some p) :
    expandFix raw s e = p := by
  unfold expandFix
  rw [expandLoop_mono raw _ (s + raw.length + 1) _ p (by omega) h]
  rfl

/-- C9.  The iterative span-expansion loop of
`applyMarkdownModification` terminates: with fuel
`start + (|raw| - stop) + 1` it reaches a state where neither side
grows (a fixed point of `expandOnce`), the span only grows, stays
within the document, and the total growth is bounded by the document
length. -/
theorem C9_expansion_terminates (raw : List Char) (s e : Nat) (hse : s ≤ e)
    (helen : e ≤ raw.length) :
    ∃ p : Nat × Nat, expandLoop raw (s + (raw.length - e) + 1) (s, e) = some p ∧
      expandFix raw s e = p ∧ (expandOnce raw p).2 = false ∧
      p.1 ≤ s ∧ e ≤ p.2 ∧ p.2 ≤ raw.length ∧ (s - p.1) + (p.2 - e) ≤ raw.length := by
  obtain ⟨p, hp, hfix, hp1, hp2, hp3⟩ := expandLoop_total raw (s + (raw.length - e) + 1) s e
    (by omega)
  have hmax : max e raw.length = raw.length := by omega
  rw [hmax] at hp3
  exact ⟨p, hp, expandFix_eq_of_loop raw s e p hp, hfix, hp1, hp2, hp3, by omega⟩

/-- Witness for C9: `raw = "==hi=="`, initial span (2, 4); the loop
stops at the fixed point (0, 6). -/
theorem C9_expansion_terminates_witness :
    ∃ p : Nat × Nat, expandLoop "==hi==".data (2 + ("==hi==".data.length - 4) + 1) (2, 4) =
        some p ∧
      expandFix "==hi==".data 2 4 = p ∧ (expandOnce "==hi==".data p).2 = false ∧
      p.1 ≤ 2 ∧ 4 ≤ p.2 ∧ p.2 ≤ "==hi==".data.length ∧
      (2 - p.1) + (p.2 - 4) ≤ "==hi==".data.length :=
  C9_expansion_terminates "==hi==".data 2 4 (by decide) (by decide)

theorem expandFix_start_le (raw : List Char) (s e : Nat) : (expandFix raw s e).1 ≤ s := by
  obtain ⟨p, hp, _, hp1, _, _⟩ := expandLoop_total raw (s + (raw.length - e) + 1) s e (by omega)
  rw [expandFix_eq_of_loop raw s e p hp]
  exact hp1

/-- C10.  The text written back by `applyMarkdownModification` is
`raw[0:expandedStart] ++ rewrittenBlock ++ raw[expandedEnd:]`: every
character before the expanded start keeps its position and value, and
every character from the expanded end on reappears unchanged right
after the rewritten block. -/
theorem C10_frame (st : PluginSettings) (raw : List Char) (start stop : Nat)
    (mode : MarkMode) (payload autoTag : List Char) (hstart : start ≤ raw.length) :
    applyMarkdownModification st raw start stop mode payload autoTag =
      raw.take (expandFix raw start stop).1 ++
        rewriteBlock st mode payload autoTag
          (listExtract raw (expandFix raw start stop).1 (expandFix raw start stop).2) ++
        raw.drop (expandFix raw start stop).2 ∧
    (∀ i, i < (expandFix raw start stop).1 →
      (applyMarkdownModification st raw start stop mode payload autoTag)[i]? = raw[i]?) ∧
    (∀ k, (applyMarkdownModification st raw start stop mode payload autoTag)[
        (expandFix raw start stop).1 +
        (rewriteBlock st mode payload autoTag
          (listExtract raw (expandFix raw start stop).1 (expandFix raw start stop).2)).length +
        k]? = raw[(expandFix raw start stop).2 + k]?) := by
  set es := (expandFix raw start stop).1 with hes
  set ee := (expandFix raw start stop).2 with hee
  set B := rewriteBlock st mode payload autoTag (listExtract raw es ee) with hB
  have heq : applyMarkdownModification st raw start stop mode payload autoTag =
      raw.take es ++ B ++ raw.drop ee := rfl
  have heslen : es ≤ raw.length := le_trans (expandFix_start_le raw start stop) hstart
  have htakelen : (raw.take es).length = es := by
    rw [List.length_take]
    omega
  refine ⟨heq, ?_, ?_⟩
  · intro i hi
    rw [heq]
    rw [List.getElem?_append_left (by rw [List.length_append, htakelen]; omega)]
    rw [List.getElem?_append_left (by omega)]
    rw [List.getElem?_take]
    rw [if_pos (by omega)]
  · intro k
    rw [heq]
    have hlen2 : (raw.take es ++ B).length = es + B.length := by
      rw [List.length_append, htakelen]
    rw [List.getElem?_append_right (by rw [hlen2]; omega)]
    rw [hlen2]
    have hidx : es + B.length + k - (es + B.length) = k := by omega
    rw [hidx, List.getElem?_drop]

/-- Witness for C10: one-line document, remove mode. -/
theorem C10_frame_witness :
    applyMarkdownModification ⟨[], false, []⟩ "- item".data 2 6 MarkMode.remove [] [] =
      "- item".data.take (expandFix "- item".data 2 6).1 ++
        rewriteBlock ⟨[], false, []⟩ MarkMode.remove [] []
          (listExtract "- item".data (expandFix "- item".data 2 6).1
            (expandFix "- item".data 2 6).2) ++
        "- item".data.drop (expandFix "- item".data 2 6).2 ∧
    (∀ i, i < (expandFix "- item".data 2 6).1 →
      (applyMarkdownModification ⟨[], false, []⟩ "- item".data 2 6 MarkMode.remove [] [])[i]? =
        "- item".data[i]?) ∧
    (∀ k, (applyMarkdownModification ⟨[], false, []⟩ "- item".data 2 6
        MarkMode.remove [] [])[
        (expandFix "- item".data 2 6).1 +
        (rewriteBlock ⟨[], false, []⟩ MarkMode.remove [] []
          (listExtract "- item".data (expandFix "- item".data 2 6).1
            (expandFix "- item".data 2 6).2)).length + k]? =
      "- item".data[(expandFix "- item".data 2 6).2 + k]?) :=
  C10_frame ⟨[], false, []⟩ "- item".data 2 6 MarkMode.remove [] [] (by decide)

/-!
## The stripped-search path (C6)
-/

theorem strippedSearch_nonempty (T S : List Char) (hS : jsTrim S ≠ [])
    (hocc : ∃ a b, (buildStripped T).2 = a ++ jsTrim S ++ b) :
    ∃ cs, findCandidatesStripped T S = some cs ∧ cs ≠ [] := by
  obtain ⟨a, b, hT⟩ := hocc
  set text := (buildStripped T).2 with htext
  have hTassoc : text = a ++ (jsTrim S ++ b) := by rw [hT, List.append_assoc]
  have hmatchj : matchAtoms (patternOf S) (text.drop a.length) = some (jsTrim S).length := by
    rw [hTassoc, List.drop_left]
    exact (selfMatch_main (jsTrim S).length (jsTrim S) b (Nat.le_refl _) (lastOk_jsTrim S)).1
  have hjle : a.length ≤ text.length := by rw [hTassoc]; simp
  have hfindsome : (findFrom text (patternOf S) 0).isSome := by
    unfold findFrom
    exact findFromAux_succeeds text (patternOf S) (text.length + 1 - 0) 0 a.length
      (jsTrim S).length (Nat.zero_le _) (by omega) hmatchj
  obtain ⟨⟨s, e⟩, hf⟩ := Option.isSome_iff_exists.mp hfindsome
  obtain ⟨hs0, m, hm, he⟩ := findFromAux_sound text (patternOf S) _ 0 s e hf
  have hm1 : 1 ≤ m := by
    match hpo : patternOf S, patternOf_ne_nil hS with
    | a' :: p', _ =>
      rw [hpo] at hm
      exact matchAtoms_one_le a' p' _ m hm
  have hmle : m ≤ text.length - s := by
    have := matchAtoms_le (patternOf S) _ m hm
    simpa using this
  have hrest : (execLoop text (patternOf S) (text.length + 1) e).isSome :=
    execLoop_total text (patternOf S) (patternOf_ne_nil hS) (text.length + 1) e
      (by omega) (by omega)
  obtain ⟨l', hl'⟩ := Option.isSome_iff_exists.mp hrest
  have hexec : execLoop text (patternOf S) (text.length + 2) 0 = some ((s, e) :: l') :=
    execLoop_cons text (patternOf S) (text.length + 1) 0 s e l' hf hl'
  refine ⟨((s, e) :: l').map (fun se =>
      (⟨(buildStripped T).1.getD se.1 0,
        if se.2 < (buildStripped T).1.length then (buildStripped T).1.getD se.2 0
        else (buildStripped T).1.getD (se.2 - 1) 0 + 1,
        listExtract T ((buildStripped T).1.getD se.1 0)
          (if se.2 < (buildStripped T).1.length then (buildStripped T).1.getD se.2 0
           else (buildStripped T).1.getD (se.2 - 1) 0 + 1)⟩ : Cand)), ?_, by simp⟩
  simp only [findCandidatesStripped]
  rw [← htext, hexec]
  rfl

/-- C6 counterexample.  First: when `T` really contains the snippet
wrapped as `*S*`, the exact search already finds `S` inside the
delimiters, so the claim's premise "the exact search yields zero
candidates" can never hold for that shape.  Second: in the nearest
satisfiable scenario — emphasis interrupting the snippet, here
`T = "*a* b"`, `S = "a b"` with zero exact candidates — the
stripped-search span (1, 5) covers the closing emphasis delimiter at
offset 2, so the returned span does **not** cover only the inner
text. -/
theorem C6_cex_span_covers_delimiter :
    findAllCandidates "*hi* x".data "hi".data = some [⟨1, 3, "hi".data⟩] ∧
    findAllCandidates "*a* b".data "a b".data = some [] ∧
    locateSelection "*a* b".data "a b".data none 0 =
      some (some ⟨"*a* b".data, 1, 5⟩) ∧
    "*a* b".data[2]? = some '*' ∧
    listExtract "*a* b".data 1 5 ≠ "a b".data := by
  refine ⟨by decide, by decide, by decide, by decide, by decide⟩

/-- C6 (amended).  If the exact search yields zero candidates and the
trimmed snippet occurs in the stripped projection, the stripped-search
path still finds it and `locate` returns a span.  The span's start is
the raw offset of the first matched visible character, so opening
delimiters immediately before the match are excluded; but the span end
is the raw offset of the *next* visible character (or last+1 at the
end of the projection), so closing delimiters inside that window are
covered: for `T = "*a* b"`, `S = "a b"` the span is (1, 5), covering
the closing `*` at offset 2, while for `T = "x *hi*"`, `S = "x hi"`
the span is (0, 5), stopping before the final `*`. -/
theorem C6_amended_stripped_path :
    (∀ T S a b : List Char, jsTrim S ≠ [] → findAllCandidates T S = some [] →
      (buildStripped T).2 = a ++ jsTrim S ++ b →
      ∃ r, locateSelection T S none 0 = some (some r)) ∧
    buildStripped "*a* b".data = ([1, 3, 4], "a b".data) ∧
    locateSelection "*a* b".data "a b".data none 0 =
      some (some ⟨"*a* b".data, 1, 5⟩) ∧
    findAllCandidates "x *hi*".data "x hi".data = some [] ∧
    locateSelection "x *hi*".data "x hi".data none 0 =
      some (some ⟨"x *hi*".data, 0, 5⟩) := by
  refine ⟨?_, by decide, by decide, by decide, by decide⟩
  intro T S a b hS hexact hocc
  obtain ⟨cs, hstr, hcs⟩ := strippedSearch_nonempty T S hS ⟨a, b, hocc⟩
  obtain ⟨c, l, rfl⟩ := List.exists_cons_of_ne_nil hcs
  refine ⟨⟨T, c.start, c.stop⟩, ?_⟩
  unfold locateSelection
  rw [hexact]
  simp only [List.length_nil, if_pos rfl]
  rw [hstr]
  simp [pickResult]

/-- Witness for the amended C6 at `T = "*a* b"`, `S = "a b"`. -/
theorem C6_amended_stripped_path_witness :
    ∃ r, locateSelection "*a* b".data "a b".data none 0 = some (some r) :=
  C6_amended_stripped_path.1 "*a* b".data "a b".data [] [] (by decide) (by decide) (by decide)
